import Mathlib

/-!
The image store of `pkg/imagestore/imagestore.go`.

A shallow embedding of the `rhcosStore` type and of its three methods `Populate`,
`BaseFile` and `HaveVersion`, with the helper `pathForVersion`.

Modelling decisions.

* A Go `map[string]T` is an association list read through `mapGet` (the first binding of
  a key is the entry of the map); `mapKeys` lists every key once, which is what
  `for k := range m` visits.  The order of the list stands for the unspecified order in
  which the map is ranged over.
* The outside world is explicit.  `World` holds the file system, which gives for each
  path what `os.Stat` and `os.Open` find there (nothing, a regular file, a directory, or
  a path that cannot be looked up), and two logs that only record what happened: the
  HTTP requests that were issued and the paths handed to `os.Open`.  `Env` holds what
  the program cannot decide: the answer of the network to each request, whether a file
  can be created and how many bytes can be written to it.
* `errgroup.Group` runs one function per version, all at the same time, and `Wait`
  returns the first error that was produced.  The embedding runs the functions one
  after the other, each one to its end, in the order of `mapKeys`, and `Wait` returns
  the error of the first one that failed.  A function reads and writes the destination
  of its own version only, so that this is what the code does for a catalog whose
  destinations are pairwise distinct, up to which of several errors `Wait` returns; two
  versions that share a destination can both be fetched by the code, and are outside
  what the embedding describes.  The context that `WithContext` returns is dropped by
  `Populate`: a failure cancels nothing.
* `filepath.Base` and `filepath.Join` are the Unix versions of the Go standard library.
-/

namespace ImageStore

/-! ## Go maps -/

/-- The map index expression `v, ok := m[k]`: `none` stands for `ok == false`. -/
def mapGet {β : Type} : List (String × β) → String → Option β
  | [], _ => none
  | (k', v) :: rest, k => if k' = k then some v else mapGet rest k

/-- The keys of a map, each one once, in the order in which `range` visits them. -/
def mapKeys {β : Type} : List (String × β) → List String
  | [] => []
  | (k, _) :: rest => k :: (mapKeys rest).filter (fun k' => k' ≠ k)

/-- The map without the key `k` (the map a catalog is when `k` was never put in it). -/
def mapErase {β : Type} (m : List (String × β)) (k : String) : List (String × β) :=
  m.filter (fun e => e.1 ≠ k)

/-! ## Paths: `path/filepath` on Unix -/

/-- The path elements between the separators, as `strings.Split(path, "/")` gives them. -/
def splitSlash : List Char → List (List Char)
  | [] => [[]]
  | c :: cs =>
    if c = '/' then [] :: splitSlash cs
    else
      match splitSlash cs with
      | h :: t => (c :: h) :: t
      | [] => [[c]]

/-- One element processed by `filepath.Clean`; `st` holds the elements kept so far, the
last one first.  Empty elements and `.` are dropped, `..` removes the element before it,
is dropped at the root of a rooted path and is kept at the start of a relative one. -/
def cleanStep (rooted : Bool) (st : List (List Char)) (c : List Char) : List (List Char) :=
  if c = [] ∨ c = ['.'] then st
  else if c = ['.', '.'] then
    match st with
    | [] => if rooted then [] else [c]
    | top :: rest => if top = ['.', '.'] then c :: st else rest
  else c :: st

/-- The elements `filepath.Clean` keeps, in path order. -/
def cleanElems (rooted : Bool) (p : List Char) : List (List Char) :=
  ((splitSlash p).foldl (cleanStep rooted) []).reverse

/-- Go `filepath.Clean` on the characters of a path. -/
def filepathClean (p : List Char) : List Char :=
  if p = [] then ['.']
  else
    let rooted := p.head? = some '/'
    let body := List.intercalate ['/'] (cleanElems rooted p)
    if rooted then '/' :: body
    else if body = [] then ['.'] else body

/-- Go `filepath.Join(a, b)`: empty elements are ignored, the rest is joined with the
separator and cleaned. -/
def filepathJoin (a b : String) : String :=
  if a ≠ "" then String.mk (filepathClean (a.data ++ '/' :: b.data))
  else if b ≠ "" then String.mk (filepathClean b.data)
  else ""

/-- Go `filepath.Base(path)`: the last element of the path, trailing separators removed
first; `.` for the empty path and `/` for a path of separators only. -/
def filepathBase (path : String) : String :=
  if path = "" then "."
  else
    let p := (path.data.reverse.dropWhile (fun c => c = '/')).reverse
    let last := (p.reverse.takeWhile (fun c => c ≠ '/')).reverse
    if last = [] then "/" else String.mk last

/-! ## Errors -/

/-- The errors the package returns.  The first two and `status`, `shortWrite` are built
by `fmt.Errorf` in the package; the others are the errors of `http.Get`, `os.Create`,
`io.Copy` and `os.Stat`/`os.Open`, passed on unchanged. -/
inductive Err where
  /-- The error `missing version entry for %s`. -/
  | missingVersion (version : String)
  /-- The error `version %s missing key 'iso_url'`. -/
  | missingKey (version : String)
  /-- The error of a failed `http.Get`. -/
  | transport (url : String)
  /-- The error `Request to %s returned error code %d`. -/
  | status (url : String) (code : Int)
  /-- The error of a failed `os.Create`. -/
  | create (path : String)
  /-- The error of a failed `io.Copy`, after `written` bytes. -/
  | copy (written : Nat)
  /-- The error `Wrote %d bytes, but expected to write %d`. -/
  | shortWrite (count : Int) (expected : Int)
  /-- The error of `os.Stat` and `os.Open` on a path that does not exist. -/
  | notExist (path : String)
  /-- Any other error of `os.Stat` and `os.Open`: the path cannot be looked up (`ENOTDIR`,
  `ENAMETOOLONG`, `EACCES`) or the file cannot be read. -/
  | access (path : String)
  deriving DecidableEq, Repr

/-- The text of an error, for the errors whose text the package chooses with
`fmt.Errorf`; the text of the errors passed on from the libraries is not modelled. -/
def Err.message : Err → Option String
  | .missingVersion version => some ("missing version entry for " ++ version)
  | .missingKey version => some ("version " ++ version ++ " missing key \x27iso_url\x27")
  | .status url code =>
    some ("Request to " ++ url ++ " returned error code " ++ toString code)
  | .shortWrite count expected =>
    some ("Wrote " ++ toString count ++ " bytes, but expected to write " ++ toString expected)
  | _ => none

/-! ## The outside world -/

/-- The fields of `http.Response` the package reads.  `Body` is what the body stream
delivers before it ends; `BodyErr` tells that it ends in a read error, not in EOF. -/
structure Response where
  StatusCode : Int
  ContentLength : Int
  Body : List UInt8
  BodyErr : Bool
  deriving DecidableEq, Repr

/-- One call of `http.Get`, as recorded: the version whose task issued it, the URL, and
the answer (`none` when `http.Get` returned an error). -/
structure FetchEvent where
  version : String
  url : String
  resp : Option Response
  deriving DecidableEq, Repr

/-- What the file system has at a path. -/
inductive Node where
  /-- Nothing: `os.Stat` and `os.Open` fail with a not-exist error. -/
  | absent
  /-- A regular file with its bytes; `os.Open` fails on one that is not readable. -/
  | file (data : List UInt8) (readable : Bool)
  /-- A directory: `os.Stat` and `os.Open` succeed. -/
  | dir
  /-- A path that cannot be looked up: `os.Stat` and `os.Open` fail with an error that
  is not a not-exist error (a parent that is a regular file, a name that is too long, a
  parent that may not be searched). -/
  | blocked
  deriving DecidableEq, Repr

/-- What an open `*os.File` reads: the bytes of a regular file, or a directory. -/
inductive File where
  | regular (data : List UInt8)
  | directory
  deriving DecidableEq, Repr

/-- The state of the world: the file system, the requests issued so far and the paths
opened for reading so far. -/
structure World where
  fs : String → Node
  gets : List FetchEvent
  opens : List String

/-- What the world answers.  `httpGet n url` is the answer to a GET of `url` issued
after `n` earlier requests; `createOk path` tells whether `os.Create(path)` succeeds;
`writeLimit path` is the number of bytes after which writing to `path` fails, if any. -/
structure Env where
  httpGet : Nat → String → Option Response
  createOk : String → Bool
  writeLimit : String → Option Nat

/-- The error of `os.Stat(path)`: `nil` for a file or a directory. -/
def osStat (w : World) (path : String) : Option Err :=
  match w.fs path with
  | .absent => some (.notExist path)
  | .blocked => some (.access path)
  | .file _ _ => none
  | .dir => none

/-- Go `os.Open(path)`. -/
def osOpen (w : World) (path : String) : Except Err File :=
  match w.fs path with
  | .absent => .error (.notExist path)
  | .blocked => .error (.access path)
  | .file data readable => if readable then .ok (.regular data) else .error (.access path)
  | .dir => .ok .directory

/-- Go `os.IsNotExist(err)`. -/
def osIsNotExist : Option Err → Bool
  | some (.notExist _) => true
  | _ => false

/-- Go `io.Copy(f, resp.Body)`: the bytes that reach the file and whether the copy
ended with an error (a read error of the body or a write error of the file). -/
def ioCopy (limit : Option Nat) (resp : Response) : List UInt8 × Bool :=
  match limit with
  | some n => if n < resp.Body.length then (resp.Body.take n, true) else (resp.Body, resp.BodyErr)
  | none => (resp.Body, resp.BodyErr)

/-- The file system after `os.Create(path)` and the writes of `data` to the file: the
path holds a regular file, readable by the process that created it. -/
def writeFile (w : World) (path : String) (data : List UInt8) : World :=
  { w with fs := fun p => if p = path then .file data true else w.fs p }

/-- The world after a GET was recorded. -/
def logGet (w : World) (ev : FetchEvent) : World :=
  { w with gets := w.gets ++ [ev] }

/-! ## The store -/

/-- Go `Config`. -/
structure Config where
  DataDir : String
  Versions : String

/-- Go `rhcosStore`. -/
structure rhcosStore where
  cfg : Config
  versions : List (String × List (String × String))

/-- Go `DefaultVersions`. -/
def DefaultVersions : List (String × List (String × String)) :=
  [ ("4.6",
      [ ("iso_url", "https://mirror.openshift.com/pub/openshift-v4/dependencies/rhcos/4.6/4.6.8/rhcos-4.6.8-x86_64-live.x86_64.iso"),
        ("rootfs_url", "https://mirror.openshift.com/pub/openshift-v4/dependencies/rhcos/4.6/4.6.8/rhcos-live-rootfs.x86_64.img") ]),
    ("4.7",
      [ ("iso_url", "https://mirror.openshift.com/pub/openshift-v4/dependencies/rhcos/4.7/4.7.13/rhcos-4.7.13-x86_64-live.x86_64.iso"),
        ("rootfs_url", "https://mirror.openshift.com/pub/openshift-v4/dependencies/rhcos/4.7/4.7.13/rhcos-live-rootfs.x86_64.img") ]),
    ("4.8",
      [ ("iso_url", "https://mirror.openshift.com/pub/openshift-v4/dependencies/rhcos/pre-release/4.8.0-rc.3/rhcos-4.8.0-rc.3-x86_64-live.x86_64.iso"),
        ("rootfs_url", "https://mirror.openshift.com/pub/openshift-v4/dependencies/rhcos/pre-release/4.8.0-rc.3/rhcos-live-rootfs.x86_64.img") ]) ]

/-- Go `(*rhcosStore).pathForVersion`. -/
def pathForVersion (s : rhcosStore) (version : String) : Except Err String :=
  match mapGet s.versions version with
  | none => .error (.missingVersion version)
  | some v =>
    match mapGet v "iso_url" with
    | none => .error (.missingKey version)
    | some url => .ok (filepathJoin s.cfg.DataDir (filepathBase url))

/-- The expression `s.versions[version]["iso_url"]`: the zero value `""` when a key is
missing. -/
def isoUrl (s : rhcosStore) (version : String) : String :=
  match mapGet s.versions version with
  | none => ""
  | some v => (mapGet v "iso_url").getD ""

/-- The rest of a task once `http.Get(url)` has returned `r` (`none` is an error of
`http.Get`): the status check, `os.Create(dest)`, `io.Copy` and the length check. -/
def finishFetch (env : Env) (url dest : String) (r : Option Response) (w : World) :
    Option Err × World :=
  match r with
  | none => (some (.transport url), w)
  | some resp =>
    if resp.StatusCode < 200 ∨ resp.StatusCode > 299 then
      (some (.status url resp.StatusCode), w)
    else if !env.createOk dest then (some (.create dest), w)
    else
      let copied := ioCopy (env.writeLimit dest) resp
      let w2 := writeFile w dest copied.1
      let count : Int := copied.1.length
      if copied.2 then (some (.copy copied.1.length), w2)
      else if count ≠ resp.ContentLength then
        (some (.shortWrite count resp.ContentLength), w2)
      else (none, w2)

/-- The function `Populate` hands to `errs.Go` for one version: its error (`none` is
`nil`) and the world it leaves. -/
def populateTask (env : Env) (s : rhcosStore) (version : String) (w : World) :
    Option Err × World :=
  match pathForVersion s version with
  | .error err => (some err, w)
  | .ok dest =>
    -- bail out early if the file exists
    if !osIsNotExist (osStat w dest) then (none, w)
    else
      let url := isoUrl s version
      let r := env.httpGet w.gets.length url
      finishFetch env url dest r (logGet w ⟨version, url, r⟩)

/-- The tasks of the given versions, one after the other: the first error and the world
they leave. -/
def runTasks (env : Env) (s : rhcosStore) : List String → World → Option Err × World
  | [], w => (none, w)
  | version :: rest, w =>
    let r := populateTask env s version w
    let rs := runTasks env s rest r.2
    (match r.1 with
      | some err => some err
      | none => rs.1, rs.2)

/-- Go `(*rhcosStore).Populate`. -/
def Populate (env : Env) (s : rhcosStore) (w : World) : Option Err × World :=
  runTasks env s (mapKeys s.versions) w

/-- Go `(*rhcosStore).BaseFile`: what the returned handle reads, or the error, and the
world with the call of `os.Open` recorded. -/
def BaseFile (s : rhcosStore) (version : String) (w : World) : Except Err File × World :=
  match pathForVersion s version with
  | .error err => (.error err, w)
  | .ok path => (osOpen w path, { w with opens := w.opens ++ [path] })

/-- Go `(*rhcosStore).HaveVersion`. -/
def HaveVersion (s : rhcosStore) (version : String) : Bool :=
  (mapGet s.versions version).isSome

/-! ## Reading the logs -/

/-- The requests issued by the task of `version` among the events `evs`. -/
def fetchesOf (version : String) (evs : List FetchEvent) : List FetchEvent :=
  evs.filter (fun ev => ev.version = version)

/-- The requests issued between the world `w` and the later world `w'`. -/
def newGets (w w' : World) : List FetchEvent :=
  w'.gets.drop w.gets.length

/-! ## Auxiliary definitions -/

/-- The error of a task that got as far as copying the body. -/
def copyError (copied : List UInt8 × Bool) (resp : Response) : Option Err :=
  if copied.2 then some (.copy copied.1.length)
  else if (copied.1.length : Int) ≠ resp.ContentLength then
    some (.shortWrite copied.1.length resp.ContentLength)
  else none

/-- The characters of a file name: not empty, no separator, and not `.` or `..`. -/
def IsFileName (n : List Char) : Prop :=
  n ≠ [] ∧ '/' ∉ n ∧ n ≠ ['.'] ∧ n ≠ ['.', '.']

/-! ## Worked examples -/

/-- The catalog `{"X": {"iso_url": "http://h/a.iso"}, "Y": {"iso_url": "http://h/b.iso"}}`
in the data directory `d`. -/
def exStore : rhcosStore :=
  ⟨⟨"d", ""⟩, [("X", [("iso_url", "http://h/a.iso")]), ("Y", [("iso_url", "http://h/b.iso")])]⟩

/-- A world in which `d` is an empty directory, nothing else exists and no request was
issued. -/
def emptyDir : World := ⟨fun p => if p = "d" then .dir else .absent, [], []⟩

/-- A URL whose base name has 256 bytes, more than a file name may have. -/
def longUrl : String := String.mk ("http://h/".data ++ List.replicate 256 'a')

/-- The catalog `{"X": {"iso_url": longUrl}}` in the data directory `d`. -/
def longStore : rhcosStore := ⟨⟨"d", ""⟩, [("X", [("iso_url", longUrl)])]⟩

/-- A world in which `d` is an empty directory and the path of `d` joined with the
base name of `longUrl` cannot be looked up, the name being too long. -/
def longWorld : World :=
  ⟨fun p => if p = "d" then .dir
    else if p = filepathJoin "d" (filepathBase longUrl) then .blocked else .absent, [], []⟩

/-- A network that answers every GET with status 404 and a body of 9 bytes. -/
def env404 : Env :=
  ⟨fun _ _ => some ⟨404, 9, List.replicate 9 0, false⟩, fun _ => true, fun _ => none⟩

/-- A network that answers every GET with status 200 and declares 100 bytes, of which
the body delivers 90 before it ends. -/
def envShort : Env :=
  ⟨fun _ _ => some ⟨200, 100, List.replicate 90 0, false⟩, fun _ => true, fun _ => none⟩

/-- A network that answers `http://h/a.iso` with 10 bytes and every other URL with 20
bytes, status 200, the declared length being the length of the body. -/
def envOk : Env :=
  ⟨fun _ url =>
      if url = "http://h/a.iso" then some ⟨200, 10, List.replicate 10 1, false⟩
      else some ⟨200, 20, List.replicate 20 2, false⟩,
    fun _ => true, fun _ => none⟩

/-! # Theorems -/

/-! ## Maps -/

theorem mapGet_isSome_iff {β : Type} (m : List (String × β)) (k : String) :
    (mapGet m k).isSome = true ↔ k ∈ m.map Prod.fst := by
  induction m with
  | nil => simp [mapGet]
  | cons e rest ih =>
    obtain ⟨k', v⟩ := e
    by_cases h : k' = k
    · simp [mapGet, h]
    · have h' : ¬ k = k' := fun e => h e.symm
      simp [mapGet, h, h', ih]

theorem mapGet_eq_none_iff {β : Type} (m : List (String × β)) (k : String) :
    mapGet m k = none ↔ k ∉ m.map Prod.fst := by
  rw [← mapGet_isSome_iff]
  cases mapGet m k <;> simp

theorem mem_mapKeys {β : Type} (m : List (String × β)) (k : String) :
    k ∈ mapKeys m ↔ k ∈ m.map Prod.fst := by
  induction m with
  | nil => simp [mapKeys]
  | cons e rest ih =>
    obtain ⟨k', v⟩ := e
    by_cases h : k = k'
    · simp [mapKeys, h]
    · simp [mapKeys, h, ih]

theorem nodup_mapKeys {β : Type} (m : List (String × β)) : (mapKeys m).Nodup := by
  induction m with
  | nil => simp [mapKeys]
  | cons e rest ih =>
    obtain ⟨k', v⟩ := e
    simp only [mapKeys, List.nodup_cons, List.mem_filter]
    exact ⟨by simp, ih.filter _⟩

theorem message_ne (v : String) :
    (Err.missingVersion v).message ≠ (Err.missingKey v).message := by
  intro h
  simp only [Err.message, Option.some.injEq] at h
  have h2 := congrArg String.data h
  simp [String.data_append] at h2

/-! ## Paths of file names -/

theorem splitSlash_ne_nil (p : List Char) : splitSlash p ≠ [] := by
  cases p with
  | nil => simp [splitSlash]
  | cons c cs =>
    unfold splitSlash
    by_cases hc : c = '/'
    · simp [hc]
    · simp only [hc, if_false]
      cases splitSlash cs <;> simp

theorem splitSlash_noSlash (n : List Char) (h : '/' ∉ n) : splitSlash n = [n] := by
  induction n with
  | nil => rfl
  | cons c cs ih =>
    have hc : c ≠ '/' := fun e => h (by simp [e])
    have hcs : '/' ∉ cs := fun e => h (List.mem_cons_of_mem _ e)
    simp [splitSlash, hc, ih hcs]

theorem splitSlash_append (p n : List Char) (h : '/' ∉ n) :
    splitSlash (p ++ '/' :: n) = splitSlash p ++ [n] := by
  induction p with
  | nil => simp [splitSlash, splitSlash_noSlash n h]
  | cons c cs ih =>
    by_cases hc : c = '/'
    · simp [splitSlash, hc, ih]
    · have hne := splitSlash_ne_nil cs
      cases hs : splitSlash cs with
      | nil => exact absurd hs hne
      | cons a t => simp [splitSlash, hc, ih, hs]

theorem cleanStep_name (rooted : Bool) (st : List (List Char)) (n : List Char)
    (h : IsFileName n) : cleanStep rooted st n = n :: st := by
  obtain ⟨h1, _, h3, h4⟩ := h
  simp [cleanStep, h1, h3, h4]

theorem intercalate_snoc (sep : List Char) (l : List (List Char)) (n : List Char) :
    List.intercalate sep (l ++ [n]) =
      (if l = [] then [] else List.intercalate sep l ++ sep) ++ n := by
  induction l with
  | nil => simp [List.intercalate]
  | cons a t ih =>
    cases t with
    | nil => simp [List.intercalate, List.intersperse]
    | cons b t' =>
      simp only [List.cons_append, reduceCtorEq, if_false] at ih
      simp only [List.intercalate] at ih ⊢
      simp only [List.cons_append, List.intersperse, List.flatten_cons, reduceCtorEq, if_false,
        List.append_assoc]
      simp only [List.intersperse, List.flatten_cons, List.append_assoc] at ih
      rw [← ih]
      cases t' <;> rfl

/-- A cleaned path that ends in a file name is a prefix that depends on what precedes
the name, followed by the name. -/
theorem filepathClean_append_name (p : List Char) (hp : p ≠ []) :
    ∃ pre : List Char, ∀ n, IsFileName n → filepathClean (p ++ '/' :: n) = pre ++ n := by
  refine ⟨(if p.head? = some '/' then ['/'] else []) ++
    (if cleanElems (p.head? = some '/') p = [] then []
      else List.intercalate ['/'] (cleanElems (p.head? = some '/') p) ++ ['/']), ?_⟩
  intro n hn
  have hhead : (p ++ '/' :: n).head? = p.head? := by
    cases p with
    | nil => exact absurd rfl hp
    | cons c cs => rfl
  have hne : p ++ '/' :: n ≠ [] := by simp
  have helems : ∀ r : Bool, cleanElems r (p ++ '/' :: n) = cleanElems r p ++ [n] := by
    intro r
    simp only [cleanElems, splitSlash_append p n hn.2.1, List.foldl_append, List.foldl_cons,
      List.foldl_nil, cleanStep_name _ _ n hn, List.reverse_cons]
  have hbne : ∀ l : List (List Char), List.intercalate ['/'] (l ++ [n]) ≠ [] := by
    intro l
    rw [intercalate_snoc]
    simp [hn.1]
  simp only [filepathClean, if_neg hne, hhead, helems]
  by_cases hr : p.head? = some '/'
  · simp only [hr, if_true, decide_True, intercalate_snoc]
    simp
  · simp only [hr, if_false, decide_False, if_neg (hbne _), intercalate_snoc]
    have := hn.1
    simp [this]

theorem filepathClean_name (n : List Char) (hn : IsFileName n) : filepathClean n = n := by
  have hhead : ¬ n.head? = some '/' := by
    intro h
    cases n with
    | nil => simp at h
    | cons c cs =>
      simp at h
      exact hn.2.1 (by simp [h])
  simp [filepathClean, hn.1, hhead, cleanElems, splitSlash_noSlash n hn.2.1,
    cleanStep_name _ _ n hn, List.intercalate]

theorem String_data_ne_nil (a : String) (h : a ≠ "") : a.data ≠ [] := by
  intro e
  apply h
  cases a
  simp_all

/-- Joining a directory with two different file names gives two different paths. -/
theorem filepathJoin_injective (d a b : String) (ha : IsFileName a.data)
    (hb : IsFileName b.data) (h : filepathJoin d a = filepathJoin d b) : a = b := by
  unfold filepathJoin at h
  by_cases hd : d = ""
  · have ha' : a ≠ "" := fun e => ha.1 (by rw [e])
    have hb' : b ≠ "" := fun e => hb.1 (by rw [e])
    simp only [hd, ne_eq, not_true_eq_false, if_false, ha', hb', not_false_eq_true, if_true,
      filepathClean_name _ ha, filepathClean_name _ hb] at h
    exact h
  · obtain ⟨pre, hpre⟩ := filepathClean_append_name d.data (String_data_ne_nil d hd)
    simp only [ne_eq, hd, not_false_eq_true, if_true, hpre _ ha, hpre _ hb] at h
    have h2 := congrArg String.data h
    simp only [List.append_cancel_left_eq] at h2
    exact String.ext h2

/-- A base name other than `.`, `..` and `/` is a file name. -/
theorem filepathBase_name (url : String) (h1 : filepathBase url ≠ ".")
    (h2 : filepathBase url ≠ "..") (h3 : filepathBase url ≠ "/") :
    IsFileName (filepathBase url).data := by
  unfold filepathBase at h1 h2 h3 ⊢
  by_cases hu : url = ""
  · simp [hu] at h1
  · simp only [hu, if_false] at h1 h2 h3 ⊢
    by_cases hl : (List.takeWhile (fun c => decide (c ≠ '/'))
        (List.dropWhile (fun c => decide (c = '/')) url.data.reverse).reverse.reverse).reverse = []
    · simp only [hl, if_true] at h3
      exact absurd rfl h3
    · simp only [hl, if_false] at h1 h2 ⊢
      refine ⟨hl, ?_, ?_, ?_⟩
      · intro hmem
        rw [List.mem_reverse] at hmem
        have := List.mem_takeWhile_imp hmem
        simp at this
      · intro e; exact h1 (by rw [e])
      · intro e; exact h2 (by rw [e])

/-! ## Paths of the other base names -/

theorem filepathClean_eq (p : List Char) (hp : p ≠ []) (r : Bool)
    (hr : r = decide (p.head? = some '/')) :
    filepathClean p =
      if r = true then '/' :: List.intercalate ['/'] (cleanElems r p)
      else if List.intercalate ['/'] (cleanElems r p) = [] then ['.']
      else List.intercalate ['/'] (cleanElems r p) := by
  subst hr
  by_cases h : p.head? = some '/' <;> simp [filepathClean, hp, h]

theorem cleanElems_snoc (r : Bool) (p c : List Char) (hc : '/' ∉ c) :
    cleanElems r (p ++ '/' :: c) = (cleanStep r (cleanElems r p).reverse c).reverse := by
  simp [cleanElems, splitSlash_append p c hc, List.foldl_append]

theorem head_append_slash (p c : List Char) (hp : p ≠ []) :
    (p ++ '/' :: c).head? = p.head? := by
  cases p with
  | nil => exact absurd rfl hp
  | cons a t => rfl

/-- An empty element or `.` at the end of a path is dropped by `filepath.Clean`. -/
theorem filepathClean_append_skip (p c : List Char) (hp : p ≠ [])
    (hc : c = [] ∨ c = ['.']) : filepathClean (p ++ '/' :: c) = filepathClean p := by
  have hslash : '/' ∉ c := by
    rcases hc with h | h <;> rw [h] <;> decide
  have hstep : ∀ (r : Bool) (st : List (List Char)), cleanStep r st c = st := by
    intro r st
    rcases hc with h | h <;> simp [cleanStep, h]
  rw [filepathClean_eq (p ++ '/' :: c) (by simp) (decide (p.head? = some '/'))
      (by rw [head_append_slash p c hp]),
    filepathClean_eq p hp (decide (p.head? = some '/')) rfl,
    cleanElems_snoc _ p c hslash, hstep, List.reverse_reverse]

theorem intercalate_length_snoc (sep : List Char) (l : List (List Char)) (n : List Char) :
    (List.intercalate sep l).length ≤ (List.intercalate sep (l ++ [n])).length := by
  rw [intercalate_snoc]
  by_cases h : l = []
  · simp [h, List.intercalate]
  · simp [h]

/-- A path that ends in `..` and a path that ends in a file name are cleaned to
different paths. -/
theorem filepathClean_dotdot_ne_name (p n : List Char) (hp : p ≠ []) (hn : IsFileName n) :
    filepathClean (p ++ '/' :: ['.', '.']) ≠ filepathClean (p ++ '/' :: n) := by
  have hdd : '/' ∉ ['.', '.'] := by decide
  have hnlen : 0 < n.length := List.length_pos.2 hn.1
  rw [filepathClean_eq (p ++ '/' :: ['.', '.']) (by simp) (decide (p.head? = some '/'))
      (by rw [head_append_slash p _ hp]),
    filepathClean_eq (p ++ '/' :: n) (by simp) (decide (p.head? = some '/'))
      (by rw [head_append_slash p _ hp]),
    cleanElems_snoc _ p _ hdd, cleanElems_snoc _ p n hn.2.1, cleanStep_name _ _ n hn,
    List.reverse_cons, List.reverse_reverse]
  generalize decide (p.head? = some '/') = r
  generalize cleanElems r p = L
  have hname : List.intercalate ['/'] (L ++ [n]) ≠ [] := by
    rw [intercalate_snoc]; simp [hn.1]
  rcases List.eq_nil_or_concat L with hL | ⟨R, top, hL⟩
  · subst hL
    cases r
    · simp [cleanStep, List.intercalate, hn.1]
      exact fun h => hn.2.2.2 h.symm
    · simp [cleanStep, List.intercalate, hn.1]
  · rw [List.concat_eq_append] at hL
    subst hL
    by_cases htop : top = ['.', '.']
    · have hstep : cleanStep r (R ++ [top]).reverse ['.', '.'] =
          ['.', '.'] :: (R ++ [top]).reverse := by
        simp [cleanStep, htop]
      rw [hstep, List.reverse_cons, List.reverse_reverse]
      have hdot : List.intercalate ['/'] (R ++ [top] ++ [['.', '.']]) ≠ [] := by
        rw [intercalate_snoc]; simp
      intro h
      have h2 : List.intercalate ['/'] (R ++ [top] ++ [['.', '.']]) =
          List.intercalate ['/'] (R ++ [top] ++ [n]) := by
        cases r
        · simp only [Bool.false_eq_true, if_false] at h
          rw [if_neg hdot, if_neg hname] at h
          exact h
        · simpa using h
      rw [intercalate_snoc, intercalate_snoc _ _ n] at h2
      exact hn.2.2.2 (List.append_cancel_left h2).symm
    · have hstep : cleanStep r (R ++ [top]).reverse ['.', '.'] = R.reverse := by
        simp [cleanStep, htop]
      rw [hstep, List.reverse_reverse]
      have h1 := intercalate_length_snoc ['/'] R top
      have h3 : (List.intercalate ['/'] (R ++ [top] ++ [n])).length =
          (List.intercalate ['/'] (R ++ [top])).length + 1 + n.length := by
        rw [intercalate_snoc _ (R ++ [top]) n]
        simp
        omega
      intro h
      have hlen := congrArg List.length h
      cases r
      · simp only [Bool.false_eq_true, if_false, if_neg hname] at hlen
        split_ifs at hlen with he
        · have h4 : (['.'] : List Char).length = 1 := rfl
          omega
        · omega
      · simp only [if_true, List.length_cons] at hlen
        omega

theorem filepathBase_cases (url : String) :
    filepathBase url = "." ∨ filepathBase url = "/" ∨ filepathBase url = ".." ∨
      IsFileName (filepathBase url).data := by
  by_cases h1 : filepathBase url = "."
  · exact Or.inl h1
  · by_cases h3 : filepathBase url = "/"
    · exact Or.inr (Or.inl h3)
    · by_cases h2 : filepathBase url = ".."
      · exact Or.inr (Or.inr (Or.inl h2))
      · exact Or.inr (Or.inr (Or.inr (filepathBase_name url h1 h2 h3)))

/-- In a directory with a name, `/` is joined to the directory itself, as `.` is. -/
theorem filepathJoin_slash (d : String) (hd : d ≠ "") :
    filepathJoin d "/" = filepathJoin d "." := by
  have hp := String_data_ne_nil d hd
  have h1 : filepathClean (d.data ++ '/' :: ['/']) = filepathClean d.data := by
    have : d.data ++ '/' :: ['/'] = (d.data ++ '/' :: []) ++ '/' :: [] := by simp
    rw [this, filepathClean_append_skip _ [] (by simp) (Or.inl rfl),
      filepathClean_append_skip _ [] hp (Or.inl rfl)]
  have h2 : filepathClean (d.data ++ '/' :: ['.']) = filepathClean d.data :=
    filepathClean_append_skip _ _ hp (Or.inr rfl)
  simp only [filepathJoin, ne_eq, hd, not_false_eq_true, if_true]
  show String.mk (filepathClean (d.data ++ '/' :: ['/'])) =
    String.mk (filepathClean (d.data ++ '/' :: ['.']))
  rw [h1, h2]

theorem filepathJoin_dotdot_ne_name (d b : String) (hb : IsFileName b.data) :
    filepathJoin d ".." ≠ filepathJoin d b := by
  have hb' : b ≠ "" := fun e => hb.1 (by rw [e])
  by_cases hd : d = ""
  · subst hd
    intro h
    have h1 : filepathJoin "" ".." = ".." := by decide
    have h2 : filepathJoin "" b = b := by
      simp only [filepathJoin, ne_eq, not_true_eq_false, if_false, hb', not_false_eq_true,
        if_true, filepathClean_name _ hb]
    rw [h1, h2] at h
    exact hb.2.2.2 (by rw [← h])
  · intro h
    simp only [filepathJoin, ne_eq, hd, not_false_eq_true, if_true] at h
    have h2 := congrArg String.data h
    exact filepathClean_dotdot_ne_name d.data b.data (String_data_ne_nil d hd) hb h2

theorem filepathJoin_empty_slash_ne (b : String)
    (hb : b = ".." ∨ IsFileName b.data) : filepathJoin "" "/" ≠ filepathJoin "" b := by
  have h1 : filepathJoin "" "/" = "/" := by decide
  rw [h1]
  rcases hb with h | h
  · rw [h]; decide
  · have hb' : b ≠ "" := fun e => h.1 (by rw [e])
    have h2 : filepathJoin "" b = b := by
      simp only [filepathJoin, ne_eq, not_true_eq_false, if_false, hb', not_false_eq_true,
        if_true, filepathClean_name _ h]
    rw [h2]
    intro e
    exact h.2.1 (by rw [← e]; decide)

/-- Two different base names of which neither is joined to a path where the data
directory is, are joined to different paths. -/
theorem filepathJoin_base_ne (d u u' : String)
    (h1 : filepathJoin d (filepathBase u) ≠ filepathJoin d ".")
    (h2 : filepathJoin d (filepathBase u') ≠ filepathJoin d ".")
    (hb : filepathBase u ≠ filepathBase u') :
    filepathJoin d (filepathBase u) ≠ filepathJoin d (filepathBase u') := by
  have hslash : ∀ x : String, filepathBase x = "/" → filepathJoin d (filepathBase x) ≠
      filepathJoin d "." → d = "" := by
    intro x hx hne
    by_contra hd
    rw [hx, filepathJoin_slash d hd] at hne
    exact hne rfl
  rcases filepathBase_cases u with a | a | a | a
  · rw [a] at h1; exact absurd rfl h1
  · have hd := hslash u a h1
    subst hd
    rcases filepathBase_cases u' with b | b | b | b
    · rw [b] at h2; exact absurd rfl h2
    · exact absurd (a.trans b.symm) hb
    · rw [a]; exact filepathJoin_empty_slash_ne _ (Or.inl b)
    · rw [a]; exact filepathJoin_empty_slash_ne _ (Or.inr b)
  · rcases filepathBase_cases u' with b | b | b | b
    · rw [b] at h2; exact absurd rfl h2
    · have hd := hslash u' b h2
      subst hd
      rw [b]
      exact fun e => filepathJoin_empty_slash_ne _ (Or.inl a) e.symm
    · exact absurd (a.trans b.symm) hb
    · rw [a]; exact filepathJoin_dotdot_ne_name d _ b
  · rcases filepathBase_cases u' with b | b | b | b
    · rw [b] at h2; exact absurd rfl h2
    · have hd := hslash u' b h2
      subst hd
      rw [b]
      exact fun e => filepathJoin_empty_slash_ne _ (Or.inr a) e.symm
    · rw [b]; exact fun e => filepathJoin_dotdot_ne_name d _ a e.symm
    · exact fun e => hb (filepathJoin_injective d _ _ a b e)

/-! ## One task -/

theorem pathForVersion_ok_iff (s : rhcosStore) (v dest : String) :
    pathForVersion s v = .ok dest ↔
      ∃ desc url, mapGet s.versions v = some desc ∧ mapGet desc "iso_url" = some url ∧
        dest = filepathJoin s.cfg.DataDir (filepathBase url) := by
  unfold pathForVersion
  cases h1 : mapGet s.versions v with
  | none => simp
  | some desc =>
    cases h2 : mapGet desc "iso_url" with
    | none => simp [h2]
    | some url =>
      simp only [h2, Except.ok.injEq, Option.some.injEq, exists_and_left, exists_eq_left']
      exact eq_comm

theorem isoUrl_eq (s : rhcosStore) (v : String) (desc : List (String × String)) (url : String)
    (hv : mapGet s.versions v = some desc) (hu : mapGet desc "iso_url" = some url) :
    isoUrl s v = url := by
  simp [isoUrl, hv, hu]

theorem osIsNotExist_osStat (w : World) (path : String) :
    osIsNotExist (osStat w path) = decide (w.fs path = .absent) := by
  unfold osStat
  cases w.fs path <;> rfl

/-- The early return of line 79: whatever `os.Stat` answers, except a not-exist error. -/
theorem populateTask_exists (env : Env) (s : rhcosStore) (v dest : String) (w : World)
    (hdest : pathForVersion s v = .ok dest) (h : w.fs dest ≠ .absent) :
    populateTask env s v w = (none, w) := by
  simp [populateTask, hdest, osIsNotExist_osStat, h]

theorem populateTask_absent (env : Env) (s : rhcosStore) (v dest : String) (w : World)
    (hdest : pathForVersion s v = .ok dest) (h : w.fs dest = .absent) :
    populateTask env s v w =
      finishFetch env (isoUrl s v) dest (env.httpGet w.gets.length (isoUrl s v))
        (logGet w ⟨v, isoUrl s v, env.httpGet w.gets.length (isoUrl s v)⟩) := by
  simp [populateTask, hdest, osIsNotExist_osStat, h]

theorem finishFetch_none (env : Env) (url dest : String) (w : World) :
    finishFetch env url dest none w = (some (.transport url), w) := rfl

theorem finishFetch_status (env : Env) (url dest : String) (resp : Response) (w : World)
    (hs : resp.StatusCode < 200 ∨ resp.StatusCode > 299) :
    finishFetch env url dest (some resp) w = (some (.status url resp.StatusCode), w) := by
  simp only [finishFetch, if_pos hs]

theorem finishFetch_create (env : Env) (url dest : String) (resp : Response) (w : World)
    (h1 : 200 ≤ resp.StatusCode) (h2 : resp.StatusCode ≤ 299)
    (hc : env.createOk dest = false) :
    finishFetch env url dest (some resp) w = (some (.create dest), w) := by
  have hs : ¬ (resp.StatusCode < 200 ∨ resp.StatusCode > 299) := by omega
  simp [finishFetch, if_neg hs, hc]

theorem finishFetch_copy (env : Env) (url dest : String) (resp : Response) (w : World)
    (h1 : 200 ≤ resp.StatusCode) (h2 : resp.StatusCode ≤ 299)
    (hc : env.createOk dest = true) :
    finishFetch env url dest (some resp) w =
      (copyError (ioCopy (env.writeLimit dest) resp) resp,
        writeFile w dest (ioCopy (env.writeLimit dest) resp).1) := by
  have hs : ¬ (resp.StatusCode < 200 ∨ resp.StatusCode > 299) := by omega
  simp only [finishFetch, if_neg hs, hc, copyError]
  split_ifs <;> simp_all

theorem finishFetch_gets (env : Env) (url dest : String) (r : Option Response) (w : World) :
    (finishFetch env url dest r w).2.gets = w.gets := by
  unfold finishFetch
  cases r with
  | none => rfl
  | some resp => dsimp only; split_ifs <;> rfl

theorem finishFetch_opens (env : Env) (url dest : String) (r : Option Response) (w : World) :
    (finishFetch env url dest r w).2.opens = w.opens := by
  unfold finishFetch
  cases r with
  | none => rfl
  | some resp => dsimp only; split_ifs <;> rfl

theorem finishFetch_fs_other (env : Env) (url dest : String) (r : Option Response) (w : World)
    (p : String) (hp : p ≠ dest) : (finishFetch env url dest r w).2.fs p = w.fs p := by
  unfold finishFetch
  cases r with
  | none => rfl
  | some resp => dsimp only; split_ifs <;> simp [writeFile, hp]

theorem ioCopy_body (limit : Option Nat) (resp : Response)
    (h : (ioCopy limit resp).2 = false) : (ioCopy limit resp).1 = resp.Body := by
  unfold ioCopy at *
  cases limit with
  | none => rfl
  | some n =>
    by_cases hn : n < resp.Body.length
    · simp [hn] at h
    · simp [hn]

/-! ## The lookups -/

/-- C5: `pathForVersion` fails with the unknown-version error when the version is not a
key of the catalog, fails with the missing-asset error (a different error, with a
different text) when the version is a key whose descriptor has no `iso_url` key, and
otherwise returns the data directory joined with the base name of the version's
`iso_url`.  The result is the same for every store with the same data directory and the
same `iso_url` entry for the version: no file system is read and the other asset keys
do not matter. -/
theorem pathForVersion_contract (s : rhcosStore) (v : String) :
    (v ∉ s.versions.map Prod.fst → pathForVersion s v = .error (.missingVersion v)) ∧
    (∀ desc, mapGet s.versions v = some desc → "iso_url" ∉ desc.map Prod.fst →
      pathForVersion s v = .error (.missingKey v)) ∧
    (∀ desc url, mapGet s.versions v = some desc → mapGet desc "iso_url" = some url →
      pathForVersion s v = .ok (filepathJoin s.cfg.DataDir (filepathBase url))) ∧
    Err.missingVersion v ≠ Err.missingKey v ∧
    (Err.missingVersion v).message ≠ (Err.missingKey v).message ∧
    (∀ s' : rhcosStore, s'.cfg.DataDir = s.cfg.DataDir →
      (mapGet s'.versions v).map (fun d => mapGet d "iso_url") =
        (mapGet s.versions v).map (fun d => mapGet d "iso_url") →
      pathForVersion s' v = pathForVersion s v) := by
  refine ⟨?_, ?_, ?_, ?_, message_ne v, ?_⟩
  · intro h
    have := (mapGet_eq_none_iff s.versions v).2 h
    simp [pathForVersion, this]
  · intro desc hv hu
    have := (mapGet_eq_none_iff desc "iso_url").2 hu
    simp [pathForVersion, hv, this]
  · intro desc url hv hu
    simp [pathForVersion, hv, hu]
  · intro h; cases h
  · intro s' hd hm
    unfold pathForVersion
    cases h1 : mapGet s.versions v with
    | none =>
      rw [h1] at hm
      cases h2 : mapGet s'.versions v with
      | none => rfl
      | some d' => rw [h2] at hm; simp at hm
    | some d =>
      rw [h1] at hm
      cases h2 : mapGet s'.versions v with
      | none => rw [h2] at hm; simp at hm
      | some d' =>
        rw [h2] at hm
        simp only [Option.map_some', Option.some.injEq] at hm
        simp only [hm, hd]

/-- The default catalog in `/data`: version `4.8` resolves to the base name of its
`iso_url` under `/data`, version `9.9` is unknown. -/
theorem pathForVersion_contract_witness :
    pathForVersion ⟨⟨"/data", ""⟩, DefaultVersions⟩ "4.8" =
      .ok "/data/rhcos-4.8.0-rc.3-x86_64-live.x86_64.iso" ∧
    pathForVersion ⟨⟨"/data", ""⟩, DefaultVersions⟩ "9.9" = .error (.missingVersion "9.9") ∧
    pathForVersion ⟨⟨"/data", ""⟩, [("4.8", [("rootfs_url", "http://h/r.img")])]⟩ "4.8" =
      .error (.missingKey "4.8") :=
  ⟨((pathForVersion_contract ⟨⟨"/data", ""⟩, DefaultVersions⟩ "4.8").2.2.1 _ _
      rfl rfl).trans (congrArg Except.ok (by decide)),
   (pathForVersion_contract ⟨⟨"/data", ""⟩, DefaultVersions⟩ "9.9").1 (by decide),
   (pathForVersion_contract ⟨⟨"/data", ""⟩, [("4.8", [("rootfs_url", "http://h/r.img")])]⟩
      "4.8").2.1 _ rfl (by decide)⟩

/-- C9: `HaveVersion(v)` is true exactly when `v` is a key of the catalog; it is the same
for every store whose catalog has the same keys (whatever the data directory and the
descriptors), and no file system is read.  For the default catalog `HaveVersion("4.8")`
is true and `HaveVersion("9.9")` is false. -/
theorem HaveVersion_contract (s : rhcosStore) (v : String) :
    (HaveVersion s v = true ↔ v ∈ s.versions.map Prod.fst) ∧
    (∀ s' : rhcosStore, s'.versions.map Prod.fst = s.versions.map Prod.fst →
      HaveVersion s' v = HaveVersion s v) ∧
    (s.versions = DefaultVersions →
      HaveVersion s "4.8" = true ∧ HaveVersion s "9.9" = false) := by
  refine ⟨mapGet_isSome_iff _ _, ?_, ?_⟩
  · intro s' hk
    have h1 := mapGet_isSome_iff s.versions v
    have h2 := mapGet_isSome_iff s'.versions v
    rw [hk] at h2
    unfold HaveVersion
    cases h3 : (mapGet s.versions v).isSome <;> cases h4 : (mapGet s'.versions v).isSome <;>
      simp_all
  · intro hd
    unfold HaveVersion
    rw [hd]
    exact ⟨by decide, by decide⟩

/-- The default catalog in two data directories, and a catalog with the same keys whose
descriptors are empty. -/
theorem HaveVersion_contract_witness :
    HaveVersion ⟨⟨"/data", ""⟩, DefaultVersions⟩ "4.8" = true ∧
    HaveVersion ⟨⟨"/data", ""⟩, DefaultVersions⟩ "9.9" = false ∧
    HaveVersion ⟨⟨"/tmp", ""⟩, [("4.6", []), ("4.7", []), ("4.8", [])]⟩ "4.7" =
      HaveVersion ⟨⟨"/data", ""⟩, DefaultVersions⟩ "4.7" :=
  ⟨((HaveVersion_contract ⟨⟨"/data", ""⟩, DefaultVersions⟩ "4.8").2.2 rfl).1,
   ((HaveVersion_contract ⟨⟨"/data", ""⟩, DefaultVersions⟩ "4.8").2.2 rfl).2,
   (HaveVersion_contract ⟨⟨"/data", ""⟩, DefaultVersions⟩ "4.7").2.1
     ⟨⟨"/tmp", ""⟩, [("4.6", []), ("4.7", []), ("4.8", [])]⟩ (by decide)⟩

/-! ## The task of one version -/

/-- C1 (amended): in `Populate`, for a version whose destination path resolves: if the
destination exists (`os.Stat` finds a regular file, whatever it holds, or a directory),
the task returns success, issues no request and leaves the world as it is; if `os.Stat`
reports that the destination does not exist, the task issues one GET, for the `iso_url`
of that version, changes no other path, and, when the answer has a 2xx status and the
file can be created, writes the body of the response to that path (the bytes the copy
delivered, which are the whole body when the copy ends without error). -/
theorem populateTask_skip_or_fetch (env : Env) (s : rhcosStore) (v dest : String) (w : World)
    (hdest : pathForVersion s v = .ok dest) :
    (∀ data readable, w.fs dest = .file data readable → populateTask env s v w = (none, w)) ∧
    (w.fs dest = .dir → populateTask env s v w = (none, w)) ∧
    (w.fs dest = .absent →
      ∃ desc url, mapGet s.versions v = some desc ∧ mapGet desc "iso_url" = some url ∧
        (populateTask env s v w).2.gets =
          w.gets ++ [⟨v, url, env.httpGet w.gets.length url⟩] ∧
        (∀ p, p ≠ dest → (populateTask env s v w).2.fs p = w.fs p) ∧
        (∀ resp, env.httpGet w.gets.length url = some resp →
          200 ≤ resp.StatusCode → resp.StatusCode ≤ 299 → env.createOk dest = true →
          (populateTask env s v w).2.fs dest =
            .file (ioCopy (env.writeLimit dest) resp).1 true ∧
          ((ioCopy (env.writeLimit dest) resp).2 = false →
            (populateTask env s v w).2.fs dest = .file resp.Body true))) := by
  refine ⟨fun data r h => populateTask_exists env s v dest w hdest (by rw [h]; simp),
    fun h => populateTask_exists env s v dest w hdest (by rw [h]; simp), ?_⟩
  intro habs
  obtain ⟨desc, url, hv, hu, _⟩ := (pathForVersion_ok_iff s v dest).1 hdest
  refine ⟨desc, url, hv, hu, ?_⟩
  rw [populateTask_absent env s v dest w hdest habs, isoUrl_eq s v desc url hv hu]
  refine ⟨by rw [finishFetch_gets]; rfl, ?_, ?_⟩
  · intro p hp
    rw [finishFetch_fs_other _ _ _ _ _ p hp]; rfl
  · intro resp hr h1 h2 hc
    rw [hr, finishFetch_copy env url dest resp _ h1 h2 hc]
    refine ⟨by simp [writeFile], fun hcopy => ?_⟩
    rw [ioCopy_body _ _ hcopy]
    simp [writeFile]

/-- Version `X` of the example catalog in an empty directory, fetched from a network that
answers 200 with 10 bytes: the task issues one GET and `d/a.iso` holds the 10 bytes. -/
theorem populateTask_skip_or_fetch_witness :
    pathForVersion exStore "X" = .ok "d/a.iso" ∧ emptyDir.fs "d/a.iso" = .absent ∧
    ∃ desc url, mapGet exStore.versions "X" = some desc ∧ mapGet desc "iso_url" = some url ∧
      (populateTask envOk exStore "X" emptyDir).2.gets =
        emptyDir.gets ++ [⟨"X", url, envOk.httpGet emptyDir.gets.length url⟩] ∧
      (∀ p, p ≠ "d/a.iso" → (populateTask envOk exStore "X" emptyDir).2.fs p = emptyDir.fs p) ∧
      (∀ resp, envOk.httpGet emptyDir.gets.length url = some resp →
        200 ≤ resp.StatusCode → resp.StatusCode ≤ 299 → envOk.createOk "d/a.iso" = true →
        (populateTask envOk exStore "X" emptyDir).2.fs "d/a.iso" =
          .file (ioCopy (envOk.writeLimit "d/a.iso") resp).1 true ∧
        ((ioCopy (envOk.writeLimit "d/a.iso") resp).2 = false →
          (populateTask envOk exStore "X" emptyDir).2.fs "d/a.iso" = .file resp.Body true)) :=
  ⟨by rfl, by decide,
    (populateTask_skip_or_fetch envOk exStore "X" "d/a.iso" emptyDir (by rfl)).2.2
      (by decide)⟩

/-- C1 (as stated) fails: version `X` of the example catalog resolves to `d/a.iso`, which
does not exist in the empty directory `d`; the GET of its `iso_url` is answered with
status 404 and a body of 9 bytes; the task issues the GET and fails, and no response is
written: `d/a.iso` still does not exist. -/
theorem populateTask_fetch_not_written :
    pathForVersion exStore "X" = .ok "d/a.iso" ∧ emptyDir.fs "d/a.iso" = .absent ∧
    (populateTask env404 exStore "X" emptyDir).2.gets =
      [⟨"X", "http://h/a.iso", some ⟨404, 9, List.replicate 9 0, false⟩⟩] ∧
    (populateTask env404 exStore "X" emptyDir).1 = some (.status "http://h/a.iso" 404) ∧
    (populateTask env404 exStore "X" emptyDir).2.fs "d/a.iso" = .absent :=
  ⟨by rfl, by decide, by decide, by decide, by decide⟩

/-- C6: a task whose destination does not exist and whose GET is answered with a status
`s` below 200 or above 299 fails with the error that carries the URL and `s` (its text
is `Request to <url> returned error code <s>`), and the file system is left as it was:
no file is created at the destination.  A status from 200 to 299 passes the check: the
task does not fail with a status error. -/
theorem populateTask_status_check (env : Env) (s : rhcosStore) (v : String) (w : World)
    (desc : List (String × String)) (url : String) (resp : Response)
    (hv : mapGet s.versions v = some desc) (hu : mapGet desc "iso_url" = some url)
    (habs : w.fs (filepathJoin s.cfg.DataDir (filepathBase url)) = .absent)
    (hget : env.httpGet w.gets.length url = some resp) :
    ((resp.StatusCode < 200 ∨ resp.StatusCode > 299) →
      (populateTask env s v w).1 = some (.status url resp.StatusCode) ∧
      (Err.status url resp.StatusCode).message =
        some ("Request to " ++ url ++ " returned error code " ++ toString resp.StatusCode) ∧
      (populateTask env s v w).2.fs = w.fs ∧
      (populateTask env s v w).2.fs (filepathJoin s.cfg.DataDir (filepathBase url)) = .absent) ∧
    ((200 ≤ resp.StatusCode ∧ resp.StatusCode ≤ 299) →
      ∀ u c, (populateTask env s v w).1 ≠ some (.status u c)) := by
  have hdest : pathForVersion s v = .ok (filepathJoin s.cfg.DataDir (filepathBase url)) :=
    (pathForVersion_ok_iff s v _).2 ⟨desc, url, hv, hu, rfl⟩
  rw [populateTask_absent env s v _ w hdest habs, isoUrl_eq s v desc url hv hu, hget]
  constructor
  · intro hs
    rw [finishFetch_status env url _ resp _ hs]
    exact ⟨rfl, rfl, rfl, habs⟩
  · intro ⟨h1, h2⟩ u c
    cases hc : env.createOk (filepathJoin s.cfg.DataDir (filepathBase url)) with
    | false => rw [finishFetch_create env url _ resp _ h1 h2 hc]; simp
    | true =>
      rw [finishFetch_copy env url _ resp _ h1 h2 hc]
      simp only [copyError]
      split_ifs <;> simp

/-- Version `X` of the example catalog in an empty directory, answered with status 404:
the task fails with the status error for `http://h/a.iso` and 404, and `d/a.iso` is not
created. -/
theorem populateTask_status_check_witness :
    (populateTask env404 exStore "X" emptyDir).1 = some (.status "http://h/a.iso" 404) ∧
    (populateTask env404 exStore "X" emptyDir).2.fs = emptyDir.fs ∧
    (populateTask env404 exStore "X" emptyDir).2.fs "d/a.iso" = .absent :=
  have h := (populateTask_status_check env404 exStore "X" emptyDir
    [("iso_url", "http://h/a.iso")] "http://h/a.iso" ⟨404, 9, List.replicate 9 0, false⟩
    (by rfl) (by rfl) (by rfl) (by rfl)).1 (by decide)
  ⟨h.1, h.2.2.1, h.2.2.2⟩

/-- C7: a task that receives a 2xx response, creates the destination and copies the body
without an I/O error has written the whole body, and succeeds exactly when the number of
bytes written equals the declared content length of the response; on a mismatch it
fails with the short-write error that carries the number of bytes written and the
expected length (its text is `Wrote <count> bytes, but expected to write <length>`). -/
theorem populateTask_length_check (env : Env) (s : rhcosStore) (v : String) (w : World)
    (desc : List (String × String)) (url : String) (resp : Response)
    (hv : mapGet s.versions v = some desc) (hu : mapGet desc "iso_url" = some url)
    (habs : w.fs (filepathJoin s.cfg.DataDir (filepathBase url)) = .absent)
    (hget : env.httpGet w.gets.length url = some resp)
    (h1 : 200 ≤ resp.StatusCode) (h2 : resp.StatusCode ≤ 299)
    (hc : env.createOk (filepathJoin s.cfg.DataDir (filepathBase url)) = true)
    (hcopy : (ioCopy (env.writeLimit (filepathJoin s.cfg.DataDir (filepathBase url))) resp).2
      = false) :
    (populateTask env s v w).2.fs (filepathJoin s.cfg.DataDir (filepathBase url))
      = .file resp.Body true ∧
    ((populateTask env s v w).1 = none ↔ (resp.Body.length : Int) = resp.ContentLength) ∧
    ((resp.Body.length : Int) ≠ resp.ContentLength →
      (populateTask env s v w).1 =
        some (.shortWrite resp.Body.length resp.ContentLength)) ∧
    (Err.shortWrite resp.Body.length resp.ContentLength).message =
      some ("Wrote " ++ toString (resp.Body.length : Int) ++ " bytes, but expected to write "
        ++ toString resp.ContentLength) := by
  have hdest : pathForVersion s v = .ok (filepathJoin s.cfg.DataDir (filepathBase url)) :=
    (pathForVersion_ok_iff s v _).2 ⟨desc, url, hv, hu, rfl⟩
  rw [populateTask_absent env s v _ w hdest habs, isoUrl_eq s v desc url hv hu, hget,
    finishFetch_copy env url _ resp _ h1 h2 hc, ioCopy_body _ _ hcopy]
  refine ⟨by simp [writeFile], ?_, ?_, rfl⟩
  · simp only [copyError, hcopy, ioCopy_body _ _ hcopy]
    split_ifs <;> simp_all
  · intro hne
    simp only [copyError, hcopy, ioCopy_body _ _ hcopy]
    split_ifs <;> simp_all

/-- Version `X` of the example catalog in an empty directory, answered with status 200,
a declared length of 100 and a body of 90 bytes: the 90 bytes are written and the task
fails with the short-write error for 90 bytes written and 100 expected. -/
theorem populateTask_length_check_witness :
    (populateTask envShort exStore "X" emptyDir).2.fs "d/a.iso"
      = .file (List.replicate 90 0) true ∧
    (populateTask envShort exStore "X" emptyDir).1 = some (.shortWrite 90 100) :=
  have h := populateTask_length_check envShort exStore "X" emptyDir
    [("iso_url", "http://h/a.iso")] "http://h/a.iso" ⟨200, 100, List.replicate 90 0, false⟩
    (by rfl) (by rfl) (by rfl) (by rfl) (by decide) (by decide) (by rfl) (by rfl)
  ⟨h.1, h.2.2.1 (by decide)⟩

/-! ## What a task and a run of tasks leave unchanged -/

theorem populateTask_cases (env : Env) (s : rhcosStore) (v : String) (w : World) :
    (∃ err, pathForVersion s v = .error err ∧ populateTask env s v w = (some err, w)) ∨
    (∃ dest, pathForVersion s v = .ok dest ∧ w.fs dest ≠ .absent ∧
      populateTask env s v w = (none, w)) ∨
    (∃ dest, pathForVersion s v = .ok dest ∧ w.fs dest = .absent ∧
      populateTask env s v w =
        finishFetch env (isoUrl s v) dest (env.httpGet w.gets.length (isoUrl s v))
          (logGet w ⟨v, isoUrl s v, env.httpGet w.gets.length (isoUrl s v)⟩)) := by
  cases hp : pathForVersion s v with
  | error err => left; exact ⟨err, rfl, by simp [populateTask, hp]⟩
  | ok dest =>
    right
    by_cases hf : w.fs dest = .absent
    · right; exact ⟨dest, rfl, hf, populateTask_absent env s v dest w hp hf⟩
    · left; exact ⟨dest, rfl, hf, populateTask_exists env s v dest w hp hf⟩

theorem finishFetch_fs_persist (env : Env) (url dest : String) (r : Option Response)
    (w : World) (habs : w.fs dest = .absent) (p : String)
    (h : w.fs p ≠ .absent) : (finishFetch env url dest r w).2.fs p = w.fs p := by
  have hp : p ≠ dest := by
    intro e; rw [e] at h; exact h habs
  rw [finishFetch_fs_other env url dest r w p hp]

/-- A task changes nothing at a path where `os.Stat` does not report not-exist. -/
theorem populateTask_fs_persist (env : Env) (s : rhcosStore) (v : String) (w : World)
    (p : String) (h : w.fs p ≠ .absent) :
    (populateTask env s v w).2.fs p = w.fs p := by
  rcases populateTask_cases env s v w with ⟨err, _, he⟩ | ⟨dest, _, _, he⟩ |
    ⟨dest, _, habs, he⟩
  · rw [he]
  · rw [he]
  · rw [he]
    exact finishFetch_fs_persist env _ dest _ (logGet w _) habs p h

theorem populateTask_fs_other (env : Env) (s : rhcosStore) (v dest : String) (w : World)
    (hdest : pathForVersion s v = .ok dest) (p : String) (hp : p ≠ dest) :
    (populateTask env s v w).2.fs p = w.fs p := by
  rcases populateTask_cases env s v w with ⟨err, _, he⟩ | ⟨dest', _, _, he⟩ |
    ⟨dest', hd', habs, he⟩
  · rw [he]
  · rw [he]
  · rw [hdest] at hd'
    cases hd'
    rw [he, finishFetch_fs_other env _ dest _ _ p hp]; rfl

theorem populateTask_opens (env : Env) (s : rhcosStore) (v : String) (w : World) :
    (populateTask env s v w).2.opens = w.opens := by
  rcases populateTask_cases env s v w with ⟨err, _, he⟩ | ⟨dest, _, _, he⟩ |
    ⟨dest, _, habs, he⟩
  · rw [he]
  · rw [he]
  · rw [he, finishFetch_opens]; rfl

/-- The requests a task issues: none, or one, tagged with its version. -/
theorem populateTask_gets (env : Env) (s : rhcosStore) (v : String) (w : World) :
    ∃ evs : List FetchEvent, (populateTask env s v w).2.gets = w.gets ++ evs ∧
      evs.length ≤ 1 ∧
      ∀ ev ∈ evs, ev.version = v ∧ ev.url = isoUrl s v ∧
        ev.resp = env.httpGet w.gets.length ev.url := by
  rcases populateTask_cases env s v w with ⟨err, _, he⟩ | ⟨dest, _, _, he⟩ |
    ⟨dest, _, habs, he⟩
  · exact ⟨[], by rw [he]; simp, by simp, by simp⟩
  · exact ⟨[], by rw [he]; simp, by simp, by simp⟩
  · refine ⟨[⟨v, isoUrl s v, env.httpGet w.gets.length (isoUrl s v)⟩], ?_, by simp, ?_⟩
    · rw [he, finishFetch_gets]; rfl
    · intro ev hev
      simp only [List.mem_singleton] at hev
      subst hev
      exact ⟨rfl, rfl, rfl⟩

theorem runTasks_nil (env : Env) (s : rhcosStore) (w : World) :
    runTasks env s [] w = (none, w) := rfl

theorem runTasks_cons_snd (env : Env) (s : rhcosStore) (v : String) (rest : List String)
    (w : World) :
    (runTasks env s (v :: rest) w).2 = (runTasks env s rest (populateTask env s v w).2).2 :=
  rfl

theorem runTasks_cons_fst (env : Env) (s : rhcosStore) (v : String) (rest : List String)
    (w : World) :
    (runTasks env s (v :: rest) w).1 =
      match (populateTask env s v w).1 with
      | some err => some err
      | none => (runTasks env s rest (populateTask env s v w).2).1 := rfl

theorem runTasks_fs_persist (env : Env) (s : rhcosStore) (vs : List String) (w : World)
    (p : String) (h : w.fs p ≠ .absent) :
    (runTasks env s vs w).2.fs p = w.fs p := by
  induction vs generalizing w with
  | nil => rfl
  | cons v rest ih =>
    have h1 := populateTask_fs_persist env s v w p h
    rw [runTasks_cons_snd, ih _ (by rw [h1]; exact h), h1]

theorem runTasks_opens (env : Env) (s : rhcosStore) (vs : List String) (w : World) :
    (runTasks env s vs w).2.opens = w.opens := by
  induction vs generalizing w with
  | nil => rfl
  | cons v rest ih => rw [runTasks_cons_snd, ih, populateTask_opens]

/-- The requests a run of tasks issues: at most one for each task that runs. -/
theorem runTasks_gets (env : Env) (s : rhcosStore) (vs : List String) (w : World) :
    ∃ evs : List FetchEvent, (runTasks env s vs w).2.gets = w.gets ++ evs ∧
      (∀ ev ∈ evs, ev.version ∈ vs ∧ ev.url = isoUrl s ev.version ∧
        ∃ n, ev.resp = env.httpGet n ev.url) ∧
      ∀ v, (fetchesOf v evs).length ≤ vs.count v := by
  induction vs generalizing w with
  | nil => exact ⟨[], by simp [runTasks], by simp, by simp [fetchesOf]⟩
  | cons v rest ih =>
    obtain ⟨e1, h1, hlen, hver⟩ := populateTask_gets env s v w
    obtain ⟨e2, h2, hmem, hcount⟩ := ih (populateTask env s v w).2
    refine ⟨e1 ++ e2, ?_, ?_, ?_⟩
    · rw [runTasks_cons_snd, h2, h1, List.append_assoc]
    · intro ev hev
      rcases List.mem_append.1 hev with h | h
      · obtain ⟨ha, hb, hc⟩ := hver ev h
        exact ⟨by rw [ha]; exact List.mem_cons_self _ _, by rw [ha]; exact hb, _, hc⟩
      · exact ⟨List.mem_cons_of_mem _ (hmem ev h).1, (hmem ev h).2⟩
    · intro v'
      have hc := hcount v'
      simp only [fetchesOf, List.filter_append, List.length_append] at hc ⊢
      by_cases hv : v = v'
      · subst hv
        have : (List.filter (fun ev => decide (ev.version = v)) e1).length ≤ 1 :=
          le_trans (List.length_filter_le _ _) hlen
        simp only [List.count_cons_self]
        omega
      · have he1 : List.filter (fun ev => decide (ev.version = v')) e1 = [] := by
          rw [List.filter_eq_nil_iff]
          intro ev hev
          have := (hver ev hev).1
          simp [this, hv]
        rw [he1, List.count_cons_of_ne (fun e => hv e.symm)]
        simpa using hc

theorem newGets_runTasks_mem (env : Env) (s : rhcosStore) (vs : List String) (w : World)
    (ev : FetchEvent) (h : ev ∈ newGets w (runTasks env s vs w).2) :
    ev.version ∈ vs ∧ ev.url = isoUrl s ev.version ∧ ∃ n, ev.resp = env.httpGet n ev.url := by
  obtain ⟨evs, h1, h2, _⟩ := runTasks_gets env s vs w
  have : newGets w (runTasks env s vs w).2 = evs := by simp [newGets, h1]
  rw [this] at h
  exact h2 ev h

/-! ## Requests of a run, and files that exist -/

theorem newGets_of_append (w w' : World) (evs : List FetchEvent)
    (h : w'.gets = w.gets ++ evs) : newGets w w' = evs := by
  simp [newGets, h]

theorem newGets_self (w : World) : newGets w w = [] := by
  simp [newGets]

theorem newGets_runTasks_cons (env : Env) (s : rhcosStore) (v : String) (rest : List String)
    (w : World) :
    newGets w (runTasks env s (v :: rest) w).2 =
      newGets w (populateTask env s v w).2 ++
        newGets (populateTask env s v w).2 (runTasks env s rest (populateTask env s v w).2).2 := by
  obtain ⟨e1, h1, _⟩ := populateTask_gets env s v w
  obtain ⟨e2, h2, _⟩ := runTasks_gets env s rest (populateTask env s v w).2
  rw [newGets_of_append _ _ e1 h1, newGets_of_append _ _ e2 h2]
  apply newGets_of_append
  rw [runTasks_cons_snd, h2, h1, List.append_assoc]

theorem newGets_trans (w w1 w2 : World) (e1 e2 : List FetchEvent)
    (h1 : w1.gets = w.gets ++ e1) (h2 : w2.gets = w1.gets ++ e2) :
    newGets w w2 = newGets w w1 ++ newGets w1 w2 := by
  rw [newGets_of_append _ _ e1 h1, newGets_of_append _ _ e2 h2]
  apply newGets_of_append
  rw [h2, h1, List.append_assoc]

theorem fetchesOf_newGets_populateTask_ne (env : Env) (s : rhcosStore) (v v' : String)
    (w : World) (h : v' ≠ v) : fetchesOf v (newGets w (populateTask env s v' w).2) = [] := by
  obtain ⟨e1, h1, _, hver⟩ := populateTask_gets env s v' w
  rw [newGets_of_append _ _ e1 h1, fetchesOf, List.filter_eq_nil_iff]
  intro ev hev
  have := (hver ev hev).1
  simp [this, h]

/-- A run of tasks issues no request for a version whose destination exists. -/
theorem runTasks_no_fetch (env : Env) (s : rhcosStore) (vs : List String) (w : World)
    (v dest : String) (hdest : pathForVersion s v = .ok dest)
    (h : w.fs dest ≠ .absent) :
    fetchesOf v (newGets w (runTasks env s vs w).2) = [] := by
  induction vs generalizing w with
  | nil => simp [runTasks, newGets_self, fetchesOf]
  | cons v' rest ih =>
    rw [newGets_runTasks_cons, fetchesOf, List.filter_append]
    have h2 := ih (populateTask env s v' w).2
      (by rw [populateTask_fs_persist env s v' w dest h]; exact h)
    rw [fetchesOf] at h2
    rw [h2, List.append_nil]
    by_cases hv : v' = v
    · subst hv
      rw [populateTask_exists env s v' dest w hdest h]
      simp [newGets_self]
    · exact fetchesOf_newGets_populateTask_ne env s v v' w hv

theorem finishFetch_ok_written (env : Env) (url dest : String) (r : Option Response)
    (w : World) (h : (finishFetch env url dest r w).1 = none) :
    ∃ resp, r = some resp ∧ (resp.Body.length : Int) = resp.ContentLength ∧
      (finishFetch env url dest r w).2 = writeFile w dest resp.Body := by
  cases r with
  | none => simp [finishFetch] at h
  | some resp =>
    by_cases hs : resp.StatusCode < 200 ∨ resp.StatusCode > 299
    · rw [finishFetch_status env url dest resp w hs] at h; simp at h
    · have h1 : 200 ≤ resp.StatusCode := by omega
      have h2 : resp.StatusCode ≤ 299 := by omega
      cases hc : env.createOk dest with
      | false => rw [finishFetch_create env url dest resp w h1 h2 hc] at h; simp at h
      | true =>
        rw [finishFetch_copy env url dest resp w h1 h2 hc] at h ⊢
        simp only [copyError] at h
        split_ifs at h with hcopy hlen
        have hb := ioCopy_body _ _ (by simpa using hcopy)
        rw [hb] at hlen ⊢
        exact ⟨resp, rfl, by simpa using hlen, rfl⟩

/-- After a task that returns no error, `os.Stat` does not report not-exist for the
destination of its version. -/
theorem populateTask_ok_exists (env : Env) (s : rhcosStore) (v : String) (w : World)
    (h : (populateTask env s v w).1 = none) :
    ∃ dest, pathForVersion s v = .ok dest ∧
      (populateTask env s v w).2.fs dest ≠ .absent := by
  rcases populateTask_cases env s v w with ⟨err, _, he⟩ | ⟨dest, hp, hf, he⟩ |
    ⟨dest, hp, habs, he⟩
  · rw [he] at h; simp at h
  · exact ⟨dest, hp, by rw [he]; exact hf⟩
  · rw [he] at h ⊢
    obtain ⟨resp, _, _, hw⟩ := finishFetch_ok_written _ _ _ _ _ h
    exact ⟨dest, hp, by rw [hw]; simp [writeFile]⟩

theorem runTasks_fst_none (env : Env) (s : rhcosStore) (v : String) (rest : List String)
    (w : World) (h : (runTasks env s (v :: rest) w).1 = none) :
    (populateTask env s v w).1 = none ∧
      (runTasks env s rest (populateTask env s v w).2).1 = none := by
  rw [runTasks_cons_fst] at h
  cases h1 : (populateTask env s v w).1 with
  | some err => rw [h1] at h; simp at h
  | none => rw [h1] at h; exact ⟨rfl, h⟩

/-- After a run of tasks that returns no error, `os.Stat` does not report not-exist for
the destination of any of the versions. -/
theorem runTasks_ok_exists (env : Env) (s : rhcosStore) (vs : List String) (w : World)
    (h : (runTasks env s vs w).1 = none) (v : String) (hv : v ∈ vs) :
    ∃ dest, pathForVersion s v = .ok dest ∧ (runTasks env s vs w).2.fs dest ≠ .absent := by
  induction vs generalizing w with
  | nil => simp at hv
  | cons v' rest ih =>
    obtain ⟨h1, h2⟩ := runTasks_fst_none env s v' rest w h
    rcases List.mem_cons.1 hv with hv | hv
    · subst hv
      obtain ⟨dest, hp, hf⟩ := populateTask_ok_exists env s v w h1
      exact ⟨dest, hp, by rw [runTasks_cons_snd, runTasks_fs_persist _ _ _ _ _ hf]; exact hf⟩
    · obtain ⟨dest, hp, hf⟩ := ih _ h2 hv
      exact ⟨dest, hp, by rw [runTasks_cons_snd]; exact hf⟩

/-- A run of tasks changes nothing and returns no error when `os.Stat` does not report
not-exist for any of the destinations. -/
theorem runTasks_all_exist (env : Env) (s : rhcosStore) (vs : List String) (w : World)
    (h : ∀ v ∈ vs, ∃ dest, pathForVersion s v = .ok dest ∧ w.fs dest ≠ .absent) :
    runTasks env s vs w = (none, w) := by
  induction vs with
  | nil => rfl
  | cons v rest ih =>
    obtain ⟨dest, hp, hf⟩ := h v (List.mem_cons_self _ _)
    have ht := populateTask_exists env s v dest w hp hf
    have hr := ih (fun v' hv' => h v' (List.mem_cons_of_mem _ hv'))
    simp only [runTasks, ht, hr]

theorem fetchesOf_length_le_one (env : Env) (s : rhcosStore) (w : World) (v : String) :
    (fetchesOf v (newGets w (Populate env s w).2)).length ≤ 1 := by
  obtain ⟨evs, h, _, hc⟩ := runTasks_gets env s (mapKeys s.versions) w
  rw [Populate, newGets_of_append _ _ evs h]
  exact le_trans (hc v) (List.nodup_iff_count_le_one.1 (nodup_mapKeys s.versions) v)

/-- What a task that returns no error has fetched is what its destination holds. -/
theorem populateTask_ok_fetched (env : Env) (s : rhcosStore) (v : String) (w : World)
    (h : (populateTask env s v w).1 = none) (ev : FetchEvent)
    (hev : ev ∈ newGets w (populateTask env s v w).2) :
    ∃ dest resp, pathForVersion s ev.version = .ok dest ∧ ev.resp = some resp ∧
      (populateTask env s v w).2.fs dest = .file resp.Body true ∧
      (resp.Body.length : Int) = resp.ContentLength := by
  rcases populateTask_cases env s v w with ⟨err, _, he⟩ | ⟨dest, hp, hf, he⟩ |
    ⟨dest, hp, habs, he⟩
  · rw [he] at h; simp at h
  · rw [he] at hev; simp [newGets_self] at hev
  · rw [he] at h hev ⊢
    obtain ⟨resp, hr, hlen, hw⟩ := finishFetch_ok_written _ _ _ _ _ h
    have hg := finishFetch_gets env (isoUrl s v) dest (env.httpGet w.gets.length (isoUrl s v))
      (logGet w ⟨v, isoUrl s v, env.httpGet w.gets.length (isoUrl s v)⟩)
    rw [newGets_of_append _ _ [⟨v, isoUrl s v, env.httpGet w.gets.length (isoUrl s v)⟩]
      (by rw [hg]; rfl)] at hev
    simp only [List.mem_singleton] at hev
    subst hev
    exact ⟨dest, resp, hp, hr, by rw [hw]; simp [writeFile], hlen⟩

/-- After a run of tasks that returns no error, the destination of every version that
was fetched holds the body of the response, as long as the declared length. -/
theorem runTasks_ok_fetched (env : Env) (s : rhcosStore) (vs : List String) (w : World)
    (h : (runTasks env s vs w).1 = none) (ev : FetchEvent)
    (hev : ev ∈ newGets w (runTasks env s vs w).2) :
    ∃ dest resp, pathForVersion s ev.version = .ok dest ∧ ev.resp = some resp ∧
      (runTasks env s vs w).2.fs dest = .file resp.Body true ∧
      (resp.Body.length : Int) = resp.ContentLength := by
  induction vs generalizing w with
  | nil => simp [runTasks, newGets_self] at hev
  | cons v rest ih =>
    obtain ⟨h1, h2⟩ := runTasks_fst_none env s v rest w h
    rw [newGets_runTasks_cons] at hev
    rcases List.mem_append.1 hev with hev | hev
    · obtain ⟨dest, resp, hp, hr, hf, hlen⟩ := populateTask_ok_fetched env s v w h1 ev hev
      exact ⟨dest, resp, hp, hr,
        by rw [runTasks_cons_snd, runTasks_fs_persist _ _ _ _ _ (by rw [hf]; simp)]; exact hf,
        hlen⟩
    · obtain ⟨dest, resp, hp, hr, hf, hlen⟩ := ih _ h2 hev
      exact ⟨dest, resp, hp, hr, by rw [runTasks_cons_snd]; exact hf, hlen⟩

theorem mem_mapKeys_of_mapGet {β : Type} (m : List (String × β)) (k : String) (b : β)
    (h : mapGet m k = some b) : k ∈ mapKeys m := by
  rw [mem_mapKeys, ← mapGet_isSome_iff, h]; rfl

theorem BaseFile_of_file (s : rhcosStore) (v dest : String) (w : World) (data : List UInt8)
    (hdest : pathForVersion s v = .ok dest) (h : w.fs dest = .file data true) :
    (BaseFile s v w).1 = .ok (.regular data) := by
  simp [BaseFile, hdest, osOpen, h]

/-! ## The example catalog -/

theorem exStore_get (v : String) (desc : List (String × String))
    (h : mapGet exStore.versions v = some desc) :
    (v = "X" ∧ desc = [("iso_url", "http://h/a.iso")]) ∨
    (v = "Y" ∧ desc = [("iso_url", "http://h/b.iso")]) := by
  simp only [exStore, mapGet] at h
  by_cases hx : "X" = v
  · rw [if_pos hx] at h
    exact Or.inl ⟨hx.symm, by cases h; rfl⟩
  · rw [if_neg hx] at h
    by_cases hy : "Y" = v
    · rw [if_pos hy] at h
      exact Or.inr ⟨hy.symm, by cases h; rfl⟩
    · rw [if_neg hy] at h
      cases h

theorem exStore_url (v : String) (desc : List (String × String)) (url : String)
    (h : mapGet exStore.versions v = some desc) (hu : mapGet desc "iso_url" = some url) :
    (v = "X" ∧ url = "http://h/a.iso") ∨ (v = "Y" ∧ url = "http://h/b.iso") := by
  rcases exStore_get v desc h with ⟨hv, hd⟩ | ⟨hv, hd⟩
  · subst hd
    exact Or.inl ⟨hv, by simp [mapGet] at hu; exact hu.symm⟩
  · subst hd
    exact Or.inr ⟨hv, by simp [mapGet] at hu; exact hu.symm⟩

theorem exStore_dest (v dest : String) (h : pathForVersion exStore v = .ok dest) :
    (v = "X" ∧ dest = "d/a.iso") ∨ (v = "Y" ∧ dest = "d/b.iso") := by
  obtain ⟨desc, url, hd, hu, he⟩ := (pathForVersion_ok_iff exStore v dest).1 h
  rcases exStore_url v desc url hd hu with ⟨hv, hurl⟩ | ⟨hv, hurl⟩
  · subst hurl
    exact Or.inl ⟨hv, by rw [he]; decide⟩
  · subst hurl
    exact Or.inr ⟨hv, by rw [he]; decide⟩

theorem exStore_distinct (a b dest : String) (ha : pathForVersion exStore a = .ok dest)
    (hb : pathForVersion exStore b = .ok dest) : a = b := by
  rcases exStore_dest a dest ha with ⟨h1, h2⟩ | ⟨h1, h2⟩ <;>
    rcases exStore_dest b dest hb with ⟨h3, h4⟩ | ⟨h3, h4⟩
  · rw [h1, h3]
  · rw [h2] at h4; exact absurd h4 (by decide)
  · rw [h2] at h4; exact absurd h4 (by decide)
  · rw [h1, h3]

/-! ## Populate and BaseFile -/

/-- C3 (amended): for a catalog whose versions have pairwise distinct destinations (the
catalogs for which running the tasks one after the other is what the code does) and a
version with an `iso_url`, after a `Populate` call that returns no error: if that call
fetched the version, `BaseFile` succeeds and opens a file that is as long as the declared
content length of that fetch; if the destination was a readable regular file before the
call, the call issued no request for the version, and `BaseFile` succeeds and opens that
file, unchanged, whatever its length. -/
theorem BaseFile_after_Populate (env : Env) (s : rhcosStore) (w : World) (v : String)
    (desc : List (String × String)) (url : String)
    (hv : mapGet s.versions v = some desc) (hu : mapGet desc "iso_url" = some url)
    (_hdist : ∀ a b dest, pathForVersion s a = .ok dest → pathForVersion s b = .ok dest →
      a = b)
    (hok : (Populate env s w).1 = none) :
    (∀ ev ∈ fetchesOf v (newGets w (Populate env s w).2),
      ∃ resp data, ev.resp = some resp ∧
        (BaseFile s v (Populate env s w).2).1 = .ok (.regular data) ∧
        (data.length : Int) = resp.ContentLength) ∧
    (∀ old, w.fs (filepathJoin s.cfg.DataDir (filepathBase url)) = .file old true →
      (BaseFile s v (Populate env s w).2).1 = .ok (.regular old) ∧
      fetchesOf v (newGets w (Populate env s w).2) = []) := by
  have hdest : pathForVersion s v = .ok (filepathJoin s.cfg.DataDir (filepathBase url)) :=
    (pathForVersion_ok_iff s v _).2 ⟨desc, url, hv, hu, rfl⟩
  refine ⟨?_, ?_⟩
  · intro ev hev
    rw [fetchesOf, List.mem_filter] at hev
    obtain ⟨hmem, hver⟩ := hev
    have hver : ev.version = v := by simpa using hver
    obtain ⟨dest', resp, hp', hr, hf', hlen⟩ :=
      runTasks_ok_fetched env s (mapKeys s.versions) w hok ev hmem
    rw [hver, hdest] at hp'
    cases hp'
    exact ⟨resp, resp.Body, hr, BaseFile_of_file s v _ _ _ hdest hf', hlen⟩
  · intro old hold
    have hne : w.fs (filepathJoin s.cfg.DataDir (filepathBase url)) ≠ .absent := by
      rw [hold]; simp
    have h1 := runTasks_fs_persist env s (mapKeys s.versions) w _ hne
    rw [hold] at h1
    exact ⟨BaseFile_of_file s v _ _ old hdest h1, runTasks_no_fetch env s _ w v _ hdest hne⟩

/-- The example catalog in an empty directory, fetched from a network that answers 200
with as many bytes as declared: `BaseFile("X")` opens a file of the declared length. -/
theorem BaseFile_after_Populate_witness :
    (∀ ev ∈ fetchesOf "X" (newGets emptyDir (Populate envOk exStore emptyDir).2),
      ∃ resp data, ev.resp = some resp ∧
        (BaseFile exStore "X" (Populate envOk exStore emptyDir).2).1 = .ok (.regular data) ∧
        (data.length : Int) = resp.ContentLength) ∧
    (∀ old, emptyDir.fs (filepathJoin exStore.cfg.DataDir (filepathBase "http://h/a.iso"))
        = .file old true →
      (BaseFile exStore "X" (Populate envOk exStore emptyDir).2).1 = .ok (.regular old) ∧
      fetchesOf "X" (newGets emptyDir (Populate envOk exStore emptyDir).2) = []) :=
  BaseFile_after_Populate envOk exStore emptyDir "X" [("iso_url", "http://h/a.iso")]
    "http://h/a.iso" (by rfl) (by rfl) exStore_distinct (by decide)

/-- C3 (as stated) fails: a first `Populate` of the example catalog gets 90 bytes for
each version where 100 are declared and fails, leaving the files; a second `Populate`
finds them and returns no error; `BaseFile("X")` then opens a file of 90 bytes, while
the last fetch performed for `X` declared a content length of 100. -/
theorem BaseFile_length_differs :
    (Populate envShort exStore emptyDir).1 = some (.shortWrite 90 100) ∧
    (Populate envOk exStore (Populate envShort exStore emptyDir).2).1 = none ∧
    (BaseFile exStore "X" (Populate envOk exStore (Populate envShort exStore emptyDir).2).2).1
      = .ok (.regular (List.replicate 90 0)) ∧
    (fetchesOf "X"
        (Populate envOk exStore (Populate envShort exStore emptyDir).2).2.gets).getLast?
      = some ⟨"X", "http://h/a.iso", some ⟨200, 100, List.replicate 90 0, false⟩⟩ ∧
    ((List.replicate 90 (0 : UInt8)).length : Int) ≠ 100 :=
  ⟨by decide, by decide, by rfl, by decide, by decide⟩

/-- C4 (amended): each `Populate` call issues at most one request for each version.  The
second of two calls in succession is a no-op for every version whose file exists when it
starts, and whenever `os.Stat` does not report not-exist for its destination (no request
for it, its destination unchanged), so that the two calls together issue at most one
request for such a version.  When the first call returns no error, the two calls together
issue at most one request for every version, and the second call returns no error and
leaves the world as it is. -/
theorem Populate_twice (env1 env2 : Env) (s : rhcosStore) (w : World) (v : String) :
    (fetchesOf v (newGets w (Populate env1 s w).2)).length ≤ 1 ∧
    (fetchesOf v (newGets (Populate env1 s w).2
      (Populate env2 s (Populate env1 s w).2).2)).length ≤ 1 ∧
    (∀ dest, pathForVersion s v = .ok dest → (Populate env1 s w).2.fs dest ≠ .absent →
      fetchesOf v (newGets (Populate env1 s w).2 (Populate env2 s (Populate env1 s w).2).2)
        = [] ∧
      (Populate env2 s (Populate env1 s w).2).2.fs dest = (Populate env1 s w).2.fs dest ∧
      (fetchesOf v (newGets w (Populate env2 s (Populate env1 s w).2).2)).length ≤ 1) ∧
    ((Populate env1 s w).1 = none →
      Populate env2 s (Populate env1 s w).2 = (none, (Populate env1 s w).2) ∧
      (fetchesOf v (newGets w (Populate env2 s (Populate env1 s w).2).2)).length ≤ 1) := by
  have hsplit : newGets w (Populate env2 s (Populate env1 s w).2).2 =
      newGets w (Populate env1 s w).2 ++
        newGets (Populate env1 s w).2 (Populate env2 s (Populate env1 s w).2).2 := by
    obtain ⟨e1, h1, _⟩ := runTasks_gets env1 s (mapKeys s.versions) w
    obtain ⟨e2, h2, _⟩ := runTasks_gets env2 s (mapKeys s.versions) (Populate env1 s w).2
    exact newGets_trans _ _ _ e1 e2 h1 h2
  refine ⟨fetchesOf_length_le_one env1 s w v, fetchesOf_length_le_one env2 s _ v, ?_, ?_⟩
  · intro dest hp hf
    have hno : fetchesOf v (newGets (Populate env1 s w).2
        (Populate env2 s (Populate env1 s w).2).2) = [] :=
      runTasks_no_fetch env2 s (mapKeys s.versions) (Populate env1 s w).2 v dest hp hf
    refine ⟨hno, runTasks_fs_persist _ _ _ _ _ hf, ?_⟩
    have h1 := fetchesOf_length_le_one env1 s w v
    rw [hsplit]
    unfold fetchesOf at hno h1 ⊢
    rw [List.filter_append, List.length_append, hno]
    simpa using h1
  · intro hok
    have hall := runTasks_all_exist env2 s (mapKeys s.versions) (Populate env1 s w).2
      (fun v' hv' => runTasks_ok_exists env1 s (mapKeys s.versions) w hok v' hv')
    have hall2 : Populate env2 s (Populate env1 s w).2 = (none, (Populate env1 s w).2) := hall
    refine ⟨hall2, ?_⟩
    rw [hall2]
    exact fetchesOf_length_le_one env1 s w v

/-- The example catalog in an empty directory, populated twice from a network that
answers 200 with as many bytes as declared: the second call changes nothing and one
request is issued for `X` in all. -/
theorem Populate_twice_witness :
    Populate envOk exStore (Populate envOk exStore emptyDir).2 =
      (none, (Populate envOk exStore emptyDir).2) ∧
    (fetchesOf "X" (newGets emptyDir
      (Populate envOk exStore (Populate envOk exStore emptyDir).2).2)).length ≤ 1 :=
  (Populate_twice envOk envOk exStore emptyDir "X").2.2.2 (by decide)

/-- C4 (as stated) fails: the example catalog in an empty directory, populated twice
from a network that answers every request with status 404: no file is created, and the
two calls issue two requests for version `X`. -/
theorem refetch_after_failed_Populate :
    (fetchesOf "X" (newGets emptyDir (Populate env404 exStore emptyDir).2)).length = 1 ∧
    (fetchesOf "X" (newGets (Populate env404 exStore emptyDir).2
      (Populate env404 exStore (Populate env404 exStore emptyDir).2).2)).length = 1 ∧
    (fetchesOf "X" (newGets emptyDir
      (Populate env404 exStore (Populate env404 exStore emptyDir).2).2)).length = 2 :=
  ⟨by decide, by decide, by decide⟩

/-! ## A catalog without one of its versions -/

theorem mapErase_cons_self {β : Type} (k : String) (b : β) (rest : List (String × β)) :
    mapErase ((k, b) :: rest) k = mapErase rest k := by
  simp [mapErase]

theorem mapErase_cons_ne {β : Type} (a k : String) (b : β) (rest : List (String × β))
    (h : a ≠ k) : mapErase ((a, b) :: rest) k = (a, b) :: mapErase rest k := by
  simp [mapErase, h]

theorem mapGet_mapErase_ne {β : Type} (m : List (String × β)) (k k' : String) (h : k' ≠ k) :
    mapGet (mapErase m k) k' = mapGet m k' := by
  induction m with
  | nil => rfl
  | cons e rest ih =>
    obtain ⟨a, b⟩ := e
    by_cases ha : a = k
    · subst ha
      have : ¬ a = k' := fun e => h e.symm
      rw [mapErase_cons_self, ih]
      simp [mapGet, this]
    · rw [mapErase_cons_ne a k b rest ha]
      by_cases hk : a = k'
      · simp [mapGet, hk]
      · simp [mapGet, hk, ih]

theorem mapKeys_mapErase {β : Type} (m : List (String × β)) (k : String) :
    mapKeys (mapErase m k) = (mapKeys m).filter (fun k' => k' ≠ k) := by
  induction m with
  | nil => rfl
  | cons e rest ih =>
    obtain ⟨a, b⟩ := e
    by_cases ha : a = k
    · subst ha
      rw [mapErase_cons_self, ih]
      simp [mapKeys, List.filter_filter]
    · rw [mapErase_cons_ne a k b rest ha]
      simp only [mapKeys, ih]
      simp [ha, List.filter_filter, Bool.and_comm]

theorem pathForVersion_mapErase (s : rhcosStore) (k v : String) (h : v ≠ k) :
    pathForVersion ⟨s.cfg, mapErase s.versions k⟩ v = pathForVersion s v := by
  simp only [pathForVersion, mapGet_mapErase_ne _ _ _ h]

theorem isoUrl_mapErase (s : rhcosStore) (k v : String) (h : v ≠ k) :
    isoUrl ⟨s.cfg, mapErase s.versions k⟩ v = isoUrl s v := by
  simp only [isoUrl, mapGet_mapErase_ne _ _ _ h]

theorem populateTask_mapErase (env : Env) (s : rhcosStore) (k v : String) (w : World)
    (h : v ≠ k) :
    populateTask env ⟨s.cfg, mapErase s.versions k⟩ v w = populateTask env s v w := by
  simp only [populateTask, pathForVersion_mapErase s k v h, isoUrl_mapErase s k v h]

theorem populateTask_missingKey (env : Env) (s : rhcosStore) (v : String) (w : World)
    (desc : List (String × String)) (hv : mapGet s.versions v = some desc)
    (hu : mapGet desc "iso_url" = none) :
    populateTask env s v w = (some (.missingKey v), w) := by
  simp [populateTask, pathForVersion, hv, hu]

/-- A run of tasks has the effect of the run without a version whose task fails at once. -/
theorem runTasks_filter (env : Env) (s : rhcosStore) (k : String) (err : Err)
    (hk : ∀ w, populateTask env s k w = (some err, w)) (vs : List String) (w : World) :
    (runTasks env s vs w).2 =
      (runTasks env ⟨s.cfg, mapErase s.versions k⟩ (vs.filter (fun k' => k' ≠ k)) w).2 := by
  induction vs generalizing w with
  | nil => rfl
  | cons v rest ih =>
    by_cases hv : v = k
    · subst hv
      rw [runTasks_cons_snd, hk w, ih]
      simp
    · have hf : (v :: rest).filter (fun k' => k' ≠ k) = v :: rest.filter (fun k' => k' ≠ k) := by
        simp [hv]
      rw [hf, runTasks_cons_snd, runTasks_cons_snd, populateTask_mapErase env s k v w hv, ih]

theorem runTasks_fails (env : Env) (s : rhcosStore) (k : String) (err : Err)
    (hk : ∀ w, populateTask env s k w = (some err, w)) (vs : List String) (w : World)
    (hmem : k ∈ vs) : (runTasks env s vs w).1 ≠ none := by
  induction vs generalizing w with
  | nil => simp at hmem
  | cons v rest ih =>
    intro h
    obtain ⟨h1, h2⟩ := runTasks_fst_none env s v rest w h
    rcases List.mem_cons.1 hmem with hv | hv
    · subst hv
      rw [hk w] at h1
      simp at h1
    · exact ih _ hv h2

/-- C8: for a catalog with a version `W` whose descriptor has no `iso_url` key,
`BaseFile(W)` fails with the missing-asset error and opens no file (the world is as it
was); the task of `W` in `Populate` fails with the same error whatever the file system
and the network are, leaving the world as it was, so that `Populate` returns an error;
and the tasks of the other versions do what they do for the catalog without `W`:
`Populate` leaves the same files and has issued the same requests. -/
theorem missing_iso_url (env : Env) (s : rhcosStore) (W : String)
    (desc : List (String × String)) (w : World)
    (hW : mapGet s.versions W = some desc) (hno : "iso_url" ∉ desc.map Prod.fst) :
    BaseFile s W w = (.error (.missingKey W), w) ∧
    (∀ env' w', populateTask env' s W w' = (some (.missingKey W), w')) ∧
    (Populate env s w).1 ≠ none ∧
    (∀ v w', v ≠ W →
      populateTask env s v w' = populateTask env ⟨s.cfg, mapErase s.versions W⟩ v w') ∧
    (Populate env s w).2 = (Populate env ⟨s.cfg, mapErase s.versions W⟩ w).2 := by
  have hu := (mapGet_eq_none_iff desc "iso_url").2 hno
  have htask : ∀ env' w', populateTask env' s W w' = (some (.missingKey W), w') :=
    fun env' w' => populateTask_missingKey env' s W w' desc hW hu
  refine ⟨?_, htask, ?_, ?_, ?_⟩
  · simp [BaseFile, pathForVersion, hW, hu]
  · exact runTasks_fails env s W _ (htask env) _ w (mem_mapKeys_of_mapGet _ _ _ hW)
  · intro v w' hv
    exact (populateTask_mapErase env s W v w' hv).symm
  · have h := runTasks_filter env s W _ (htask env) (mapKeys s.versions) w
    rw [← mapKeys_mapErase] at h
    exact h

/-- A catalog with version `W`, which has only a `rootfs_url`, and version `X`, in an
empty directory: `Populate` returns an error and leaves what it leaves for the catalog
with `X` alone. -/
theorem missing_iso_url_witness :
    BaseFile ⟨⟨"d", ""⟩, [("W", [("rootfs_url", "http://h/r.img")]),
        ("X", [("iso_url", "http://h/a.iso")])]⟩ "W" emptyDir
      = (.error (.missingKey "W"), emptyDir) ∧
    (Populate envOk ⟨⟨"d", ""⟩, [("W", [("rootfs_url", "http://h/r.img")]),
        ("X", [("iso_url", "http://h/a.iso")])]⟩ emptyDir).1 ≠ none ∧
    (Populate envOk ⟨⟨"d", ""⟩, [("W", [("rootfs_url", "http://h/r.img")]),
        ("X", [("iso_url", "http://h/a.iso")])]⟩ emptyDir).2 =
      (Populate envOk ⟨⟨"d", ""⟩, mapErase [("W", [("rootfs_url", "http://h/r.img")]),
        ("X", [("iso_url", "http://h/a.iso")])] "W"⟩ emptyDir).2 :=
  have h := missing_iso_url envOk ⟨⟨"d", ""⟩, [("W", [("rootfs_url", "http://h/r.img")]),
    ("X", [("iso_url", "http://h/a.iso")])]⟩ "W" [("rootfs_url", "http://h/r.img")]
    emptyDir (by rfl) (by decide)
  ⟨h.1, h.2.2.1, h.2.2.2.2⟩

/-! ## A fetch that fails after the file was created -/

theorem pathForVersion_error (s : rhcosStore) (v : String) (err : Err)
    (h : pathForVersion s v = .error err) : err = .missingVersion v ∨ err = .missingKey v := by
  unfold pathForVersion at h
  cases h1 : mapGet s.versions v with
  | none => rw [h1] at h; cases h; exact Or.inl rfl
  | some desc =>
    rw [h1] at h
    cases h2 : mapGet desc "iso_url" with
    | none => simp only [h2] at h; cases h; exact Or.inr rfl
    | some url => simp only [h2] at h; cases h

theorem finishFetch_written (env : Env) (url dest : String) (r : Option Response) (w : World)
    (e : Err) (hfail : (finishFetch env url dest r w).1 = some e)
    (hkind : (∃ n, e = .copy n) ∨ (∃ c x, e = .shortWrite c x)) :
    ∃ resp, r = some resp ∧
      (finishFetch env url dest r w).2.fs dest =
        .file (ioCopy (env.writeLimit dest) resp).1 true := by
  cases r with
  | none =>
    rw [finishFetch_none] at hfail
    cases hfail
    rcases hkind with ⟨n, h⟩ | ⟨c, x, h⟩ <;> cases h
  | some resp =>
    by_cases hs : resp.StatusCode < 200 ∨ resp.StatusCode > 299
    · rw [finishFetch_status env url dest resp w hs] at hfail
      cases hfail
      rcases hkind with ⟨n, h⟩ | ⟨c, x, h⟩ <;> cases h
    · have h1 : 200 ≤ resp.StatusCode := by omega
      have h2 : resp.StatusCode ≤ 299 := by omega
      cases hc : env.createOk dest with
      | false =>
        rw [finishFetch_create env url dest resp w h1 h2 hc] at hfail
        cases hfail
        rcases hkind with ⟨n, h⟩ | ⟨c, x, h⟩ <;> cases h
      | true =>
        rw [finishFetch_copy env url dest resp w h1 h2 hc]
        exact ⟨resp, rfl, by simp [writeFile]⟩

/-- C10: a failed fetch is not rolled back.  When a task fails with the error of the
copy or with the short-write error, the destination holds the bytes written so far.  It
still holds them after the other tasks of the call, and a following `Populate` issues no
request for that version, its task returns no error wherever it runs, and `BaseFile`
then opens the incomplete file. -/
theorem failed_fetch_stays (env : Env) (s : rhcosStore) (v : String) (w : World) (e : Err)
    (hfail : (populateTask env s v w).1 = some e)
    (hkind : (∃ n, e = .copy n) ∨ (∃ c x, e = .shortWrite c x)) :
    ∃ dest resp, pathForVersion s v = .ok dest ∧ w.fs dest = .absent ∧
      env.httpGet w.gets.length (isoUrl s v) = some resp ∧
      (populateTask env s v w).2.fs dest = .file (ioCopy (env.writeLimit dest) resp).1 true ∧
      ∀ (rest : List String) (env2 : Env) (w1 : World),
        w1 = (runTasks env s rest (populateTask env s v w).2).2 →
        w1.fs dest = .file (ioCopy (env.writeLimit dest) resp).1 true ∧
        fetchesOf v (newGets w1 (Populate env2 s w1).2) = [] ∧
        (∀ pre, populateTask env2 s v (runTasks env2 s pre w1).2 =
          (none, (runTasks env2 s pre w1).2)) ∧
        (BaseFile s v (Populate env2 s w1).2).1 =
          .ok (.regular (ioCopy (env.writeLimit dest) resp).1) := by
  rcases populateTask_cases env s v w with ⟨err, hp, he⟩ | ⟨dest, hp, hf, he⟩ |
    ⟨dest, hp, habs, he⟩
  · rw [he] at hfail
    cases hfail
    rcases pathForVersion_error s v e hp with h | h <;>
      rcases hkind with ⟨n, h'⟩ | ⟨c, x, h'⟩ <;> rw [h] at h' <;> cases h'
  · rw [he] at hfail; cases hfail
  · rw [he] at hfail ⊢
    obtain ⟨resp, hr, hw⟩ := finishFetch_written env _ dest _ _ e hfail hkind
    refine ⟨dest, resp, hp, habs, hr, hw, ?_⟩
    intro rest env2 w1 hw1
    have h1 : w1.fs dest = .file (ioCopy (env.writeLimit dest) resp).1 true := by
      rw [hw1, runTasks_fs_persist _ _ _ _ _ (by rw [hw]; simp)]; exact hw
    have hne : w1.fs dest ≠ .absent := by rw [h1]; simp
    refine ⟨h1, runTasks_no_fetch env2 s _ w1 v dest hp hne, ?_, ?_⟩
    · intro pre
      exact populateTask_exists env2 s v dest _ hp
        (by rw [runTasks_fs_persist _ _ _ _ _ hne]; exact hne)
    · exact BaseFile_of_file s v dest _ _ hp
        (by rw [Populate, runTasks_fs_persist _ _ _ _ _ hne]; exact h1)

/-- Version `X` of the example catalog in an empty directory, answered with 90 bytes
where 100 are declared: the task fails, `d/a.iso` holds the 90 bytes, and after the task
of `Y` and a following `Populate`, `BaseFile("X")` opens them. -/
theorem failed_fetch_stays_witness :
    ∃ dest resp, pathForVersion exStore "X" = .ok dest ∧ emptyDir.fs dest = .absent ∧
      envShort.httpGet emptyDir.gets.length (isoUrl exStore "X") = some resp ∧
      (populateTask envShort exStore "X" emptyDir).2.fs dest =
        .file (ioCopy (envShort.writeLimit dest) resp).1 true ∧
      ∀ (rest : List String) (env2 : Env) (w1 : World),
        w1 = (runTasks envShort exStore rest (populateTask envShort exStore "X" emptyDir).2).2 →
        w1.fs dest = .file (ioCopy (envShort.writeLimit dest) resp).1 true ∧
        fetchesOf "X" (newGets w1 (Populate env2 exStore w1).2) = [] ∧
        (∀ pre, populateTask env2 exStore "X" (runTasks env2 exStore pre w1).2 =
          (none, (runTasks env2 exStore pre w1).2)) ∧
        (BaseFile exStore "X" (Populate env2 exStore w1).2).1 =
          .ok (.regular (ioCopy (envShort.writeLimit dest) resp).1) :=
  failed_fetch_stays envShort exStore "X" emptyDir (.shortWrite 90 100) (by decide)
    (Or.inr ⟨90, 100, rfl⟩)

/-! ## Populating an empty directory -/

theorem populateTask_good (env : Env) (s : rhcosStore) (v dest : String) (w : World)
    (resp : Response) (hdest : pathForVersion s v = .ok dest) (habs : w.fs dest = .absent)
    (hget : env.httpGet w.gets.length (isoUrl s v) = some resp)
    (h1 : 200 ≤ resp.StatusCode) (h2 : resp.StatusCode ≤ 299)
    (hc : env.createOk dest = true) (hl : env.writeLimit dest = none)
    (hb : resp.BodyErr = false) (hlen : (resp.Body.length : Int) = resp.ContentLength) :
    populateTask env s v w =
      (none, writeFile (logGet w ⟨v, isoUrl s v, some resp⟩) dest resp.Body) := by
  rw [populateTask_absent env s v dest w hdest habs, hget,
    finishFetch_copy env _ dest resp _ h1 h2 hc, hl]
  simp [ioCopy, copyError, hb, hlen]

/-- A run of tasks with pairwise distinct destinations, none of which exists, all of
which can be written, on a network that answers every request well. -/
theorem runTasks_fresh (env : Env) (s : rhcosStore) (vs : List String) (w : World)
    (hnodup : vs.Nodup)
    (hpath : ∀ v ∈ vs, ∃ dest, pathForVersion s v = .ok dest)
    (hdist : ∀ v ∈ vs, ∀ v' ∈ vs, ∀ dest, pathForVersion s v = .ok dest →
      pathForVersion s v' = .ok dest → v = v')
    (habs : ∀ v ∈ vs, ∀ dest, pathForVersion s v = .ok dest → w.fs dest = .absent)
    (hdir : ∀ v ∈ vs, ∀ dest, pathForVersion s v = .ok dest →
      env.createOk dest = true ∧ env.writeLimit dest = none)
    (hget : ∀ n url, ∃ resp, env.httpGet n url = some resp ∧ 200 ≤ resp.StatusCode ∧
      resp.StatusCode ≤ 299 ∧ resp.BodyErr = false ∧
      (resp.Body.length : Int) = resp.ContentLength) :
    (runTasks env s vs w).1 = none ∧
    ∀ v ∈ vs, ∀ dest, pathForVersion s v = .ok dest →
      ∃ resp, (⟨v, isoUrl s v, some resp⟩ : FetchEvent) ∈ newGets w (runTasks env s vs w).2 ∧
        (runTasks env s vs w).2.fs dest = .file resp.Body true := by
  induction vs generalizing w with
  | nil => exact ⟨rfl, by simp⟩
  | cons v rest ih =>
    obtain ⟨dest, hp⟩ := hpath v (List.mem_cons_self _ _)
    obtain ⟨resp, hr, h1, h2, hb, hlen⟩ := hget w.gets.length (isoUrl s v)
    obtain ⟨hc, hl⟩ := hdir v (List.mem_cons_self _ _) dest hp
    have ht := populateTask_good env s v dest w resp hp
      (habs v (List.mem_cons_self _ _) dest hp) hr h1 h2 hc hl hb hlen
    have hnd := List.nodup_cons.1 hnodup
    have hih := ih (populateTask env s v w).2 hnd.2
      (fun v' hv' => hpath v' (List.mem_cons_of_mem _ hv'))
      (fun a ha b hb' d => hdist a (List.mem_cons_of_mem _ ha) b (List.mem_cons_of_mem _ hb') d)
      (by
        intro v' hv' dest' hp'
        have hne : dest' ≠ dest := by
          intro e
          rw [e] at hp'
          have := hdist v (List.mem_cons_self _ _) v' (List.mem_cons_of_mem _ hv') dest hp hp'
          rw [← this] at hv'
          exact hnd.1 hv'
        rw [populateTask_fs_other env s v dest w hp dest' hne]
        exact habs v' (List.mem_cons_of_mem _ hv') dest' hp')
      (fun v' hv' => hdir v' (List.mem_cons_of_mem _ hv'))
    have hnew : newGets w (populateTask env s v w).2 = [⟨v, isoUrl s v, some resp⟩] := by
      apply newGets_of_append
      rw [ht]; rfl
    refine ⟨?_, ?_⟩
    · rw [runTasks_cons_fst]
      have : (populateTask env s v w).1 = none := by rw [ht]
      rw [this]
      exact hih.1
    · intro v' hv' dest' hp'
      rw [newGets_runTasks_cons, runTasks_cons_snd]
      rcases List.mem_cons.1 hv' with h | h
      · subst h
        rw [hp] at hp'
        cases hp'
        refine ⟨resp, List.mem_append_left _ (by rw [hnew]; exact List.mem_singleton_self _), ?_⟩
        have hw : (populateTask env s v' w).2.fs dest = .file resp.Body true := by
          rw [ht]; simp [writeFile]
        rw [runTasks_fs_persist _ _ _ _ _ (by rw [hw]; simp)]
        exact hw
      · obtain ⟨resp', hmem, hf⟩ := hih.2 v' h dest' hp'
        exact ⟨resp', List.mem_append_right _ hmem, hf⟩

/-- C2 (amended): for a catalog in which every version has an `iso_url` and the base
names of the `iso_url`s are pairwise distinct, if the data directory is a directory,
`os.Stat` reports for every destination that it does not exist, every destination can be
created and written without limit, and every GET is answered with a 2xx status and
delivers, without error, a body as long as the declared content length, then `Populate`
returns no error and afterwards the destination of each version, the data directory
joined with the base name of its `iso_url`, holds the body of the response to the GET of
that `iso_url`. -/
theorem Populate_fresh (env : Env) (s : rhcosStore) (w : World)
    (hurl : ∀ v desc, mapGet s.versions v = some desc → "iso_url" ∈ desc.map Prod.fst)
    (hdist : ∀ v v' desc desc' url url', mapGet s.versions v = some desc →
      mapGet desc "iso_url" = some url → mapGet s.versions v' = some desc' →
      mapGet desc' "iso_url" = some url' → filepathBase url = filepathBase url' → v = v')
    (hdd : w.fs (filepathJoin s.cfg.DataDir ".") = .dir)
    (habs : ∀ v dest, pathForVersion s v = .ok dest → w.fs dest = .absent)
    (hdir : ∀ v dest, pathForVersion s v = .ok dest →
      env.createOk dest = true ∧ env.writeLimit dest = none)
    (hget : ∀ n url, ∃ resp, env.httpGet n url = some resp ∧ 200 ≤ resp.StatusCode ∧
      resp.StatusCode ≤ 299 ∧ resp.BodyErr = false ∧
      (resp.Body.length : Int) = resp.ContentLength) :
    (Populate env s w).1 = none ∧
    ∀ v desc url, mapGet s.versions v = some desc → mapGet desc "iso_url" = some url →
      ∃ n resp, env.httpGet n url = some resp ∧
        (⟨v, url, some resp⟩ : FetchEvent) ∈ newGets w (Populate env s w).2 ∧
        (Populate env s w).2.fs (filepathJoin s.cfg.DataDir (filepathBase url))
          = .file resp.Body true := by
  have hpath : ∀ v ∈ mapKeys s.versions, ∃ dest, pathForVersion s v = .ok dest := by
    intro v hv
    rw [mem_mapKeys, ← mapGet_isSome_iff] at hv
    cases hd : mapGet s.versions v with
    | none => rw [hd] at hv; cases hv
    | some desc =>
      have := (mapGet_isSome_iff desc "iso_url").2 (hurl v desc hd)
      cases hu : mapGet desc "iso_url" with
      | none => rw [hu] at this; cases this
      | some url => exact ⟨_, (pathForVersion_ok_iff s v _).2 ⟨desc, url, hd, hu, rfl⟩⟩
  have hnotdir : ∀ v dest, pathForVersion s v = .ok dest →
      dest ≠ filepathJoin s.cfg.DataDir "." := by
    intro v dest h e
    have := habs v dest h
    rw [e, hdd] at this
    cases this
  have hinj : ∀ v ∈ mapKeys s.versions, ∀ v' ∈ mapKeys s.versions, ∀ dest,
      pathForVersion s v = .ok dest → pathForVersion s v' = .ok dest → v = v' := by
    intro v _ v' _ dest h h'
    obtain ⟨desc, url, hd, hu, he⟩ := (pathForVersion_ok_iff s v dest).1 h
    obtain ⟨desc', url', hd', hu', he'⟩ := (pathForVersion_ok_iff s v' dest).1 h'
    by_contra hne
    have hb : filepathBase url ≠ filepathBase url' :=
      fun e => hne (hdist v v' desc desc' url url' hd hu hd' hu' e)
    exact filepathJoin_base_ne s.cfg.DataDir url url'
      (by rw [← he]; exact hnotdir v dest h) (by rw [← he']; exact hnotdir v' dest h') hb
      (he.symm.trans he')
  have h := runTasks_fresh env s (mapKeys s.versions) w (nodup_mapKeys _) hpath hinj
    (fun v _ => habs v) (fun v _ => hdir v) hget
  refine ⟨h.1, ?_⟩
  intro v desc url hd hu
  obtain ⟨resp, hmem, hf⟩ := h.2 v (mem_mapKeys_of_mapGet _ _ _ hd) _
    ((pathForVersion_ok_iff s v _).2 ⟨desc, url, hd, hu, rfl⟩)
  rw [isoUrl_eq s v desc url hd hu] at hmem
  obtain ⟨_, _, n, hn⟩ := newGets_runTasks_mem env s _ w _ hmem
  exact ⟨n, resp, hn.symm, hmem, hf⟩

/-- The catalog `{X: http://h/a.iso, Y: http://h/b.iso}` in the empty directory `d`, with
bodies of 10 and 20 bytes: `Populate` returns no error, `d/a.iso` has 10 bytes and
`d/b.iso` has 20 bytes. -/
theorem Populate_fresh_witness :
    ((Populate envOk exStore emptyDir).1 = none ∧
      ∀ v desc url, mapGet exStore.versions v = some desc → mapGet desc "iso_url" = some url →
        ∃ n resp, envOk.httpGet n url = some resp ∧
          (⟨v, url, some resp⟩ : FetchEvent) ∈
            newGets emptyDir (Populate envOk exStore emptyDir).2 ∧
          (Populate envOk exStore emptyDir).2.fs
            (filepathJoin exStore.cfg.DataDir (filepathBase url)) = .file resp.Body true) ∧
    (Populate envOk exStore emptyDir).2.fs "d/a.iso" = .file (List.replicate 10 1) true ∧
    (Populate envOk exStore emptyDir).2.fs "d/b.iso" = .file (List.replicate 20 2) true :=
  ⟨Populate_fresh envOk exStore emptyDir
    (by
      intro v desc h
      rcases exStore_get v desc h with ⟨_, hd⟩ | ⟨_, hd⟩ <;> subst hd <;> decide)
    (by
      intro v v' desc desc' url url' h hu h' hu' hb
      rcases exStore_url v desc url h hu with ⟨hv, he⟩ | ⟨hv, he⟩ <;>
        rcases exStore_url v' desc' url' h' hu' with ⟨hv', he'⟩ | ⟨hv', he'⟩ <;>
        subst he <;> subst he' <;> subst hv <;> subst hv' <;>
        first | rfl | exact absurd hb (by decide))
    (by decide)
    (by
      intro v dest h
      rcases exStore_dest v dest h with ⟨_, hd⟩ | ⟨_, hd⟩ <;> subst hd <;> decide)
    (fun _ _ _ => ⟨rfl, rfl⟩)
    (by
      intro n url
      by_cases hu : url = "http://h/a.iso"
      · exact ⟨⟨200, 10, List.replicate 10 1, false⟩, by simp [envOk, hu], by decide,
          by decide, rfl, by decide⟩
      · exact ⟨⟨200, 20, List.replicate 20 2, false⟩, by simp [envOk, hu], by decide,
          by decide, rfl, by decide⟩),
   by decide, by decide⟩

set_option maxRecDepth 100000 in
/-- C2 (as stated) fails: the catalog has one version, whose `iso_url` has a base name of
256 bytes; the data directory `d` is an empty directory, so that no destination exists,
and every GET is answered with status 200 and 20 bytes, as many as declared.  No file
can have a name of 256 bytes: `os.Stat` fails on the destination with an error that is
not a not-exist error, the task returns at line 80, and `Populate` returns no error
without any request: the destination holds no body. -/
theorem Populate_name_too_long :
    (filepathBase longUrl).length = 256 ∧
    pathForVersion longStore "X" = .ok (filepathJoin "d" (filepathBase longUrl)) ∧
    longWorld.fs "d" = .dir ∧
    longWorld.fs (filepathJoin "d" (filepathBase longUrl)) = .blocked ∧
    envOk.httpGet 0 longUrl = some ⟨200, 20, List.replicate 20 2, false⟩ ∧
    (Populate envOk longStore longWorld).1 = none ∧
    newGets longWorld (Populate envOk longStore longWorld).2 = [] ∧
    (Populate envOk longStore longWorld).2.fs (filepathJoin "d" (filepathBase longUrl))
      = .blocked :=
  ⟨by decide, by rfl, by decide, by decide, by decide, by decide, by decide, by decide⟩

end ImageStore
